import Mathlib

set_option maxRecDepth 8000

/-!
# Verification of the image-to-sketch rendering core

Shallow embedding of the whiteboard-animation core of this repository:
the two near-duplicate whiteboard-canvas implementations
(`src/unnamed/part_007`, the per-item variant with camera/text support
that the app mounts, and `src/unnamed/part_008`, the older variant with
non-maximum suppression and a single global path list), together with
the item processor and the per-frame draw function.

Modelling conventions:
* JavaScript numbers are modelled as `ℚ` (exact rational arithmetic);
  byte values read from `Uint8Array`s are `ℕ`.  Storing a nonnegative
  float into a `Uint8Array` truncates, which for the values occurring
  here is `Nat` floor division.
* `Math.sqrt(gx²+gy²) ≥ t` is represented by its algebraic equivalent
  `t ≤ 0 ∨ t² ≤ gx²+gy²` (the two are equivalent because the magnitude
  is the nonnegative square root); likewise comparisons between two
  magnitudes are represented by comparisons of their squares.
* The gradient-direction quantisation of `part_008` (computed there via
  `Math.atan2` in degrees) is an explicit parameter `dirQ` of the
  embedding; every theorem that touches it holds for all quantisations.
* Canvases are pixel functions; `drawImage`/`fillRect` composite
  pointwise with the context's `globalAlpha` and clip to the canvas.
-/

namespace Sketch

/-- A 2-D point with normalized rational coordinates (source type `Point`). -/
structure Pt where
  x : ℚ
  y : ℚ
deriving DecidableEq, Repr

/-- A traced polyline with a stroke-strength scalar (source type `Path`). -/
structure Path where
  points : List Pt
  strength : ℚ
deriving DecidableEq, Repr

/-- One RGBA pixel as read from `ImageData` (byte components). -/
structure Rgba where
  r : ℕ
  g : ℕ
  b : ℕ
  a : ℕ
deriving DecidableEq, Repr

/-- A raster image: pixel function (queried only inside `w × h`). -/
abbrev Raster := ℕ → ℕ → Rgba

/-- Canvas width constant from `types.ts` (`CANVAS_WIDTH = 1920`). -/
def CANVAS_WIDTH : ℚ := 1920

/-- Canvas height constant from `types.ts` (`CANVAS_HEIGHT = 1080`). -/
def CANVAS_HEIGHT : ℚ := 1080

/-! ## Edge extractor, `part_007` variant (`generatePaths`, lines 218–254)

Luminance: `if (data[i+3] < 10) gray = 255 else gray = 0.299R+0.587G+0.114B`
(stored into a `Uint8Array`, hence floored). -/

/-- Gray value of `generatePaths` (`part_007` lines 219–225): pixels with
alpha below 10 are forced to background white 255. -/
def gray007 (img : Raster) (x y : ℕ) : ℕ :=
  if (img x y).a < 10 then 255
  else (299 * (img x y).r + 587 * (img x y).g + 114 * (img x y).b) / 1000

/-- Gray value of `processCanvas` (`part_008` lines 132–135): plain
luminance, with no special case for transparent pixels. -/
def gray008 (img : Raster) (x y : ℕ) : ℕ :=
  (299 * (img x y).r + 587 * (img x y).g + 114 * (img x y).b) / 1000

/-- Horizontal Sobel response with kernel `[-1,0,1,-2,0,2,-1,0,1]`
(row-major over the 3×3 window); queried at interior pixels only. -/
def sobelGX (g : ℕ → ℕ → ℕ) (x y : ℕ) : ℤ :=
  -(g (x-1) (y-1) : ℤ) + (g (x+1) (y-1) : ℤ)
  - 2 * (g (x-1) y : ℤ) + 2 * (g (x+1) y : ℤ)
  - (g (x-1) (y+1) : ℤ) + (g (x+1) (y+1) : ℤ)

/-- Vertical Sobel response with kernel `[-1,-2,-1,0,0,0,1,2,1]`. -/
def sobelGY (g : ℕ → ℕ → ℕ) (x y : ℕ) : ℤ :=
  -(g (x-1) (y-1) : ℤ) - 2 * (g x (y-1) : ℤ) - (g (x+1) (y-1) : ℤ)
  + (g (x-1) (y+1) : ℤ) + 2 * (g x (y+1) : ℤ) + (g (x+1) (y+1) : ℤ)

/-- Interior-pixel test: the Sobel/NMS/trace loops all run
`for y in [1, h-1), x in [1, w-1)`. -/
def interior (w h x y : ℕ) : Bool :=
  decide (0 < x) && decide (x < w - 1) && decide (0 < y) && decide (y < h - 1)

/-- Squared gradient magnitude field (`magnitudes[y*w+x]²`); the
`Float32Array` is zero outside the interior. -/
def magSq (w h : ℕ) (g : ℕ → ℕ → ℕ) (x y : ℕ) : ℤ :=
  if interior w h x y then (sobelGX g x y)^2 + (sobelGY g x y)^2 else 0

/-- Edge threshold (`threshold = 120 - edgeSensitivity * 100`). -/
def threshold (s : ℚ) : ℚ := 120 - s * 100

/-- The test `sqrt mSq ≥ t`, expressed on the square: true iff `t ≤ 0` or
`t² ≤ mSq`. -/
def magGE (mSq : ℤ) (t : ℚ) : Bool :=
  decide (t ≤ 0) || decide (t^2 ≤ (mSq : ℚ))

/-- Edge mask of `generatePaths` (`part_007` lines 246–254): an interior
pixel is an edge iff its gradient magnitude is not below the threshold. -/
def edges007 (w h : ℕ) (img : Raster) (s : ℚ) (x y : ℕ) : Bool :=
  interior w h x y && magGE (magSq w h (gray007 img) x y) (threshold s)

/-- Quantized gradient direction (0°, 45°, 90°, 135°). -/
inductive Dir where
  | d0 | d45 | d90 | d135
deriving DecidableEq, Repr

/-- Squared magnitudes of the two neighbours compared against in the
non-maximum suppression of `processCanvas` (`part_008` lines 193–206). -/
def nmsNeighbors (w h : ℕ) (g : ℕ → ℕ → ℕ) (x y : ℕ) : Dir → ℤ × ℤ
  | Dir.d0 => (magSq w h g (x-1) y, magSq w h g (x+1) y)
  | Dir.d90 => (magSq w h g x (y-1), magSq w h g x (y+1))
  | Dir.d45 => (magSq w h g (x-1) (y-1), magSq w h g (x+1) (y+1))
  | Dir.d135 => (magSq w h g (x+1) (y-1), magSq w h g (x-1) (y+1))

/-- Edge mask of `processCanvas` (`part_008` lines 181–213): threshold
plus non-maximum suppression along the quantised gradient direction
`dirQ gx gy` (the `atan2`-degree quantisation is abstracted by the
parameter; all theorems hold for every quantisation). -/
def edges008 (dirQ : ℤ → ℤ → Dir) (w h : ℕ) (img : Raster) (s : ℚ)
    (x y : ℕ) : Bool :=
  let g := gray008 img
  let m := magSq w h g x y
  let nb := nmsNeighbors w h g x y (dirQ (sobelGX g x y) (sobelGY g x y))
  interior w h x y && magGE m (threshold s) &&
    decide (nb.1 ≤ m) && decide (nb.2 ≤ m)

/-- Number of marked edge pixels in the `part_007` mask. -/
def edgeCount007 (w h : ℕ) (img : Raster) (s : ℚ) : ℕ :=
  ((Finset.range w ×ˢ Finset.range h).filter
    (fun p => edges007 w h img s p.1 p.2 = true)).card

/-- Number of marked edge pixels in the `part_008` mask. -/
def edgeCount008 (dirQ : ℤ → ℤ → Dir) (w h : ℕ) (img : Raster) (s : ℚ) : ℕ :=
  ((Finset.range w ×ˢ Finset.range h).filter
    (fun p => edges008 dirQ w h img s p.1 p.2 = true)).card

/-- A shared concrete fixture raster: left half opaque black, right half
opaque white (vertical contrast edge). -/
def imgBW : Raster := fun x _ => if x < 2 then ⟨0, 0, 0, 255⟩ else ⟨255, 255, 255, 255⟩

/-- A shared concrete fixture raster: fully transparent. -/
def imgClear : Raster := fun _ _ => ⟨0, 0, 0, 0⟩

/-! ## Path tracer (`part_007` lines 256–287, `part_008` lines 215–265)

Greedy 8-connectivity walk over the edge mask.  The `visited` byte array
is modelled as a `Finset` of pixel coordinates; the while-loop is given
`w*h` fuel (each iteration visits a fresh pixel, so the fuel can never
run out on a `w × h` mask). -/

/-- Neighbour priority order E, SE, S, SW, W, NW, N, NE (the `neighbors`
array). -/
def neighborOffsets : List (ℤ × ℤ) :=
  [(1, 0), (1, 1), (0, 1), (-1, 1), (-1, 0), (-1, -1), (0, -1), (1, -1)]

/-- First unvisited edge neighbour of `(cx, cy)` in priority order
(the inner `for (const {dx, dy} of neighbors)` loop). -/
def findNext (edge : ℕ → ℕ → Bool) (w h : ℕ) (visited : Finset (ℕ × ℕ))
    (cx cy : ℕ) : Option (ℕ × ℕ) :=
  neighborOffsets.findSome? fun d =>
    let nx : ℤ := (cx : ℤ) + d.1
    let ny : ℤ := (cy : ℤ) + d.2
    if 0 < nx ∧ nx < (w : ℤ) - 1 ∧ 0 < ny ∧ ny < (h : ℤ) - 1 then
      if edge nx.toNat ny.toNat = true ∧ (nx.toNat, ny.toNat) ∉ visited then
        some (nx.toNat, ny.toNat)
      else none
    else none

/-- The tracing while-loop: visit the current pixel, record it, then hop
to the first unvisited edge neighbour.  Returns the traced pixel list
and the updated visited set. -/
def traceFrom (edge : ℕ → ℕ → Bool) (w h : ℕ) :
    ℕ → ℕ × ℕ → Finset (ℕ × ℕ) → List (ℕ × ℕ) × Finset (ℕ × ℕ)
  | 0, _, visited => ([], visited)
  | fuel + 1, c, visited =>
    let visited' := insert c visited
    match findNext edge w h visited' c.1 c.2 with
    | none => ([c], visited')
    | some nxt =>
      let r := traceFrom edge w h fuel nxt visited'
      (c :: r.1, r.2)

/-- Row-major scan over the interior pixels
(`for y in [1, h-1), for x in [1, w-1)`). -/
def interiorScan (w h : ℕ) : List (ℕ × ℕ) :=
  (List.range' 1 (h - 1 - 1)).flatMap fun y =>
    (List.range' 1 (w - 1 - 1)).map fun x => (x, y)

/-- One step of the outer scan: start a trace at an unvisited edge pixel
and keep the result when the raw trace exceeds 5 points. -/
def traceStep (edge : ℕ → ℕ → Bool) (w h : ℕ)
    (st : Finset (ℕ × ℕ) × List (List (ℕ × ℕ))) (p : ℕ × ℕ) :
    Finset (ℕ × ℕ) × List (List (ℕ × ℕ)) :=
  if edge p.1 p.2 = true ∧ p ∉ st.1 then
    let r := traceFrom edge w h (w * h) p st.1
    if 5 < r.1.length then (r.2, st.2 ++ [r.1]) else (r.2, st.2)
  else st

/-- All raw pixel paths traced from an edge mask, in scan order, already
filtered by the `length > 5` noise rule. -/
def tracePixelPaths (edge : ℕ → ℕ → Bool) (w h : ℕ) : List (List (ℕ × ℕ)) :=
  ((interiorScan w h).foldl (traceStep edge w h) (∅, [])).2

/-- Normalization of traced pixels (`{x: currX / w, y: currY / h}`). -/
def normPts (w h : ℕ) (l : List (ℕ × ℕ)) : List Pt :=
  l.map fun p => ⟨(p.1 : ℚ) / w, (p.2 : ℚ) / h⟩

/-- The 5-point moving-average smoothing window indices for position `i`
(the `j ∈ [-2,2]` offsets kept inside the list). -/
def windowIdx (n i : ℕ) : List ℕ :=
  ([-2, -1, 0, 1, 2] : List ℤ).filterMap fun j =>
    if 0 ≤ (i : ℤ) + j ∧ (i : ℤ) + j < (n : ℤ) then some ((i : ℤ) + j).toNat
    else none

/-- The `smoothPath` helper of `part_007` (lines 192–207): 5-point
moving average, lists shorter than 3 points unchanged. -/
def smoothPath (points : List Pt) : List Pt :=
  if points.length < 3 then points
  else
    (List.range points.length).map fun i =>
      let win := windowIdx points.length i
      let cnt : ℚ := win.length
      ⟨(win.map fun k => (points.getD k ⟨0, 0⟩).x).sum / cnt,
       (win.map fun k => (points.getD k ⟨0, 0⟩).y).sum / cnt⟩

/-- The `generatePaths` pipeline of `part_007` (lines 209–287): trace the `edges007`
mask and push each kept trace double-smoothed with strength 1.0. -/
def generatePaths007 (w h : ℕ) (img : Raster) (s : ℚ) : List Path :=
  (tracePixelPaths (edges007 w h img s) w h).map fun tr =>
    ⟨smoothPath (smoothPath (normPts w h tr)), 1⟩

/-- In-place ascending 3-point smoothing pass of `part_008`
(lines 271–283): index `i` reads the already-smoothed `i-1`. -/
def smooth3Go (prev : Pt) : List Pt → List Pt
  | [] => []
  | [last] => [last]
  | cur :: next :: rest =>
    let cur' : Pt := ⟨(prev.x + 2 * cur.x + next.x) / 4,
                      (prev.y + 2 * cur.y + next.y) / 4⟩
    cur' :: smooth3Go cur' (next :: rest)

/-- One full in-place smoothing pass over a path (`for i in [1, len-1)`);
paths shorter than 3 points are skipped. -/
def smooth3 (pts : List Pt) : List Pt :=
  match pts with
  | [] => []
  | p :: rest => p :: smooth3Go p rest

/-- Sort key of the `part_008` top-to-bottom sort
(`a.points[0].y + a.points[0].x * 0.1`). -/
def sortKey008 (p : Path) : ℚ :=
  (p.points.headD ⟨0, 0⟩).y + (p.points.headD ⟨0, 0⟩).x * (1 / 10)

/-- The `processCanvas` pipeline of `part_008` (lines 122–286): NMS edge mask, trace,
filter, per-layer top-to-bottom sort, then `ceil(strokeSmoothness * 2)`
in-place smoothing iterations.  The stroke strength
`clamp(avgMagnitude / 150, 0.5, 2.0)` involves the real square roots of
the gradient magnitudes, so it is abstracted by the `strengthOf`
parameter (a function of the traced pixel list). -/
def processCanvas008 (dirQ : ℤ → ℤ → Dir) (strengthOf : List (ℕ × ℕ) → ℚ)
    (w h : ℕ) (img : Raster) (s smoothness : ℚ) : List Path :=
  let raw := (tracePixelPaths (edges008 dirQ w h img s) w h).map fun tr =>
    (⟨normPts w h tr, strengthOf tr⟩ : Path)
  let sorted := raw.insertionSort fun a b => sortKey008 a ≤ sortKey008 b
  let iters := if 0 < smoothness then (⌈smoothness * 2⌉).toNat else 0
  sorted.map fun p => ⟨smooth3^[iters] p.points, p.strength⟩

/-! ## Smart-flow path organizer (`sortPathsSmart`, `part_007` lines 289–342)

Paths are clustered by breadth-first union over padded bounding-box
overlap, clusters are sorted by `center.y*5 + center.x`, and inside each
cluster the paths are chained greedily (nearest start point to the
current end point).  The embedding works on path *indices*; `pathAt` and
`boxAtL` recover path data from an index. -/

/-- Axis-aligned bounds accumulated by `getBounds` (`minX/minY` start at
1 and `maxX/maxY` at 0, matching the source's initialisers). -/
structure Box where
  minX : ℚ
  minY : ℚ
  maxX : ℚ
  maxY : ℚ
deriving DecidableEq, Repr

/-- The `getBounds` helper of `sortPathsSmart`: fold min/max over the points. -/
def boxOf (p : Path) : Box :=
  p.points.foldl
    (fun b pt => ⟨min b.minX pt.x, min b.minY pt.y, max b.maxX pt.x, max b.maxY pt.y⟩)
    ⟨1, 1, 0, 0⟩

/-- Center x `cx` of a box (`(minX + maxX) / 2`). -/
def boxCX (b : Box) : ℚ := (b.minX + b.maxX) / 2

/-- Center y `cy` of a box (`(minY + maxY) / 2`). -/
def boxCY (b : Box) : ℚ := (b.minY + b.maxY) / 2

/-- The constant `CLUSTER_THRESHOLD = 0.05` (padding in normalized space). -/
def CLUSTER_THRESHOLD : ℚ := 1 / 20

/-- The padded bounding-box overlap test of the clustering loop
(line 315, negation of the four separating conditions). -/
def boxOverlap (a b : Box) : Bool :=
  !(decide (a.maxX + CLUSTER_THRESHOLD < b.minX) ||
    decide (a.minX - CLUSTER_THRESHOLD > b.maxX) ||
    decide (a.maxY + CLUSTER_THRESHOLD < b.minY) ||
    decide (a.minY - CLUSTER_THRESHOLD > b.maxY))

/-- Default path (indices are always in range; the default is inert). -/
def defaultPath : Path := ⟨[], 1⟩

/-- Path of index `i`. -/
def pathAt (ps : List Path) (i : ℕ) : Path := ps.getD i defaultPath

/-- Bounds of the path of index `i`. -/
def boxAtL (ps : List Path) (i : ℕ) : Box := boxOf (pathAt ps i)

/-- Overlap relation between two path indices. -/
def ovL (ps : List Path) (i j : ℕ) : Bool := boxOverlap (boxAtL ps i) (boxAtL ps j)

/-- One scan of the inner `for j` loop: the unvisited indices that
overlap the dequeued element, in index order. -/
def bfsAdds (ov : ℕ → ℕ → Bool) (n : ℕ) (visited : Finset ℕ) (cur : ℕ) : List ℕ :=
  (List.range n).filter fun j => decide (j ∉ visited) && ov cur j

/-- The breadth-first cluster growth (`while (queue.length > 0)`): pop,
scan all indices, mark and enqueue the unvisited overlapping ones.  The
loop visits a fresh index per enqueue, so `n + 1` fuel always suffices. -/
def bfsGo (ov : ℕ → ℕ → Bool) (n : ℕ) :
    ℕ → List ℕ → Finset ℕ → List ℕ → List ℕ × Finset ℕ
  | 0, _, visited, cluster => (cluster, visited)
  | _ + 1, [], visited, cluster => (cluster, visited)
  | fuel + 1, cur :: queue, visited, cluster =>
    let adds := bfsAdds ov n visited cur
    bfsGo ov n fuel (queue ++ adds) (visited ∪ adds.toFinset) (cluster ++ adds)

/-- The outer clustering loop (`for i in [0, n)`): each unvisited index
seeds a breadth-first cluster. -/
def clustersGo (ov : ℕ → ℕ → Bool) (n : ℕ) (i : ℕ) (visited : Finset ℕ) :
    List (List ℕ) :=
  if _h : i < n then
    if i ∈ visited then clustersGo ov n (i + 1) visited
    else
      (bfsGo ov n (n + 1) [i] (insert i visited) [i]).1 ::
        clustersGo ov n (i + 1) (bfsGo ov n (n + 1) [i] (insert i visited) [i]).2
  else []
termination_by n - i

/-- All clusters of the index set `[0, n)`, in seed order. -/
def clustersOf (ov : ℕ → ℕ → Bool) (n : ℕ) : List (List ℕ) :=
  clustersGo ov n 0 ∅

/-- Mean center x of a cluster (the `reduce` average of member `cx`). -/
def clusterCX (boxAt : ℕ → Box) (c : List ℕ) : ℚ :=
  (c.map fun i => boxCX (boxAt i)).sum / c.length

/-- Mean center y of a cluster. -/
def clusterCY (boxAt : ℕ → Box) (c : List ℕ) : ℚ :=
  (c.map fun i => boxCY (boxAt i)).sum / c.length

/-- Cluster sort key `center.y * 5 + center.x` (line 322). -/
def clusterKey (boxAt : ℕ → Box) (c : List ℕ) : ℚ :=
  clusterCY boxAt c * 5 + clusterCX boxAt c

/-- Squared distance from the current path's end point to a candidate's
start point (line 334).  `none` models the `NaN` distances arising from
an empty point list, which the strict `<` comparison never selects. -/
def chainDist (pathAt' : ℕ → Path) (cur cand : ℕ) : Option ℚ :=
  match (pathAt' cur).points.getLast?, (pathAt' cand).points.head? with
  | some e, some s => some ((s.x - e.x) ^ 2 + (s.y - e.y) ^ 2)
  | _, _ => none

/-- One candidate step of the `bIdx`/`bDist` scan: advance the position
counter and keep the strictly smaller distance (first minimum wins). -/
def pickStep (pathAt' : ℕ → Path) (cur : ℕ)
    (st : ℕ × Option (ℕ × ℚ)) (cand : ℕ) : ℕ × Option (ℕ × ℚ) :=
  (st.1 + 1,
    match chainDist pathAt' cur cand with
    | none => st.2
    | some d =>
      match st.2 with
      | none => some (st.1, d)
      | some best => if d < best.2 then some (st.1, d) else some best)

/-- Selection of the next chained path: the first index realising the
strict minimum distance (`d < bDist`, `bDist` starting at infinity);
`0` if no finite distance exists (`bIdx !== -1 ? bIdx : 0`). -/
def pickNext (pathAt' : ℕ → Path) (cur : ℕ) (rem : List ℕ) : ℕ :=
  match (rem.foldl (pickStep pathAt' cur) (0, none)).2 with
  | some best => best.1
  | none => 0

/-- The greedy chaining loop (`while (remaining.length > 0)`): push the
current path, then continue from the nearest-start remaining path
(removed by `splice`).  The fuel is the length of `remaining`, which the
loop consumes exactly one element per iteration. -/
def chainGreedy (pathAt' : ℕ → Path) : ℕ → ℕ → List ℕ → List Path
  | _, cur, [] => [pathAt' cur]
  | 0, cur, _ :: _ => [pathAt' cur]
  | fuel + 1, cur, x :: xs =>
    pathAt' cur ::
      chainGreedy pathAt' fuel
        ((x :: xs).getD (pickNext pathAt' cur (x :: xs)) 0)
        ((x :: xs).eraseIdx (pickNext pathAt' cur (x :: xs)))

/-- Ordering of one cluster: sort members by `minY` (line 325), start
from the topmost, then chain greedily. -/
def chainCluster (pathAt' : ℕ → Path) (boxAt : ℕ → Box) (c : List ℕ) : List Path :=
  match c.insertionSort (fun a b => (boxAt a).minY ≤ (boxAt b).minY) with
  | [] => []
  | first :: rest => chainGreedy pathAt' rest.length first rest

/-- The organizer `sortPathsSmart` (`part_007` lines 289–342): cluster, sort clusters
by `center.y*5 + center.x`, chain within clusters, concatenate. -/
def sortPathsSmart (ps : List Path) : List Path :=
  if ps.isEmpty then []
  else
    (((clustersOf (ovL ps) ps.length).insertionSort fun a b =>
        clusterKey (boxAtL ps) a ≤ clusterKey (boxAtL ps) b).map
      (chainCluster (pathAt ps) (boxAtL ps))).flatten

/-! ## Item processor (`processItems`, `part_007` lines 344–369)

Items are processed in layer-array order, then text-array order.  The
browser rasterisation of a layer/text element (`renderItemCanvas`, with
`ANALYSIS_SCALE = 0.5` for the analysis copy and `1.0` for the display
copy) is abstracted by rasteriser parameters returning the analysis
dimensions and raster, and the display raster. -/

/-- The `drawingOrder` setting. -/
inductive DrawingOrder where
  | topToBottom | random | custom | smartFlow
deriving DecidableEq, Repr

/-- Item kind. -/
inductive ItemType where
  | image | text
deriving DecidableEq, Repr

/-- The `ImageLayer` fields used by the processor. -/
structure ImageLayerM where
  id : String
  x : ℚ
  y : ℚ
  width : ℚ
  height : ℚ
deriving Repr

/-- The `TextElement` fields used by the processor. -/
structure TextElementM where
  id : String
  text : String
  x : ℚ
  y : ℚ
  fontSize : ℚ
deriving Repr

/-- The `ProcessedItem` record (paths plus the ground-truth display raster). -/
structure ProcessedItem where
  id : String
  type : ItemType
  paths : List Path
  colorCanvas : Raster
  x : ℚ
  y : ℚ
  width : ℚ
  height : ℚ

/-- Sort key of the `part_007` top-to-bottom path sort
(`a.points[0].y + a.points[0].x * 0.05`, line 351). -/
def sortKey007 (p : Path) : ℚ :=
  (p.points.headD ⟨0, 0⟩).y + (p.points.headD ⟨0, 0⟩).x * (1 / 20)

/-- Path ordering applied to an image layer's paths (line 350–351):
`smart-flow` runs the organizer, `random` keeps trace order, and every
other setting (including `custom`) falls into the top-to-bottom sort. -/
def orderPaths (ord : DrawingOrder) (paths : List Path) : List Path :=
  match ord with
  | .smartFlow => sortPathsSmart paths
  | .random => paths
  | _ => paths.insertionSort fun a b => sortKey007 a ≤ sortKey007 b

/-- Path ordering applied to a text element's paths (line 360): only
`smart-flow` reorders; no top-to-bottom sort is applied to text. -/
def orderPathsText (ord : DrawingOrder) (paths : List Path) : List Path :=
  match ord with
  | .smartFlow => sortPathsSmart paths
  | _ => paths

/-- The item processor `processItems`: one `ProcessedItem` per image layer (in array
order), then one per text element (in array order).  The source skips an
item when canvas creation fails (`if (analysis && display)`); the
abstract rasterisers are total, so every item is emitted. -/
def processItems (rasterAnalysis : ImageLayerM → ℕ × ℕ × Raster)
    (rasterDisplay : ImageLayerM → Raster)
    (rasterAnalysisText : TextElementM → ℕ × ℕ × Raster)
    (rasterDisplayText : TextElementM → Raster)
    (ord : DrawingOrder) (s : ℚ)
    (layers : List ImageLayerM) (texts : List TextElementM) :
    List ProcessedItem :=
  (layers.map fun layer =>
    { id := layer.id, type := ItemType.image,
      paths := orderPaths ord
        (generatePaths007 (rasterAnalysis layer).1 (rasterAnalysis layer).2.1
          (rasterAnalysis layer).2.2 s),
      colorCanvas := rasterDisplay layer,
      x := layer.x, y := layer.y,
      width := layer.width, height := layer.height }) ++
  (texts.map fun t =>
    { id := t.id, type := ItemType.text,
      paths := orderPathsText ord
        (generatePaths007 (rasterAnalysisText t).1 (rasterAnalysisText t).2.1
          (rasterAnalysisText t).2.2 s),
      colorCanvas := rasterDisplayText t,
      x := t.x, y := t.y,
      width := t.fontSize * t.text.length, height := t.fontSize })

/-! ## Per-frame draw of `part_008` (`draw`, lines 330–523)

The 2D context is modelled as a pixel function plus the persistent
`globalAlpha` (the only context property that both influences pixels and
survives between `draw` calls — `draw` sets it per line style and never
restores it).  Every canvas operation is pointwise: the new value of a
pixel depends only on the old value of that same pixel, the operation's
arguments, and the (separate, read-only) source canvas; operations clip
to the `W × H` canvas.  Colors are opaque 0–255 rational RGB triples
(the canvases blitted here are white-filled composites).  Stroke
rasterisation is modelled as painting the stroked polyline's vertex
pixels (no line width or antialiasing); the theorems below evaluate
pixels away from all stroke vertices or cover them with a full blit, so
the rasterisation detail is inert.  Real-valued library functions
(`Math.atan2`, `Math.sin`, `Math.cos`) only feed the hand overlay and
are abstracted as rational-valued parameters. -/

/-- Opaque RGB color (byte scale, exact rationals). -/
structure Color where
  r : ℚ
  g : ℚ
  b : ℚ
deriving DecidableEq, Repr

/-- A canvas raster: pixel function. -/
abbrev Canvas := ℕ × ℕ → Color

/-- The 2D-context state: pixels plus the persistent `globalAlpha`. -/
structure CtxState where
  pixels : Canvas
  alpha : ℚ

/-- Source-over compositing of an opaque source color at `globalAlpha`
`α` over a destination pixel. -/
def blend (α : ℚ) (src dst : Color) : Color :=
  ⟨α * src.r + (1 - α) * dst.r,
   α * src.g + (1 - α) * dst.g,
   α * src.b + (1 - α) * dst.b⟩

/-- Generic pointwise canvas operation, clipped to the canvas: where the
paint map yields a function, apply it to the old pixel value. -/
def pointOp (W H : ℕ) (m : ℕ × ℕ → Option (Color → Color)) (px : Canvas) : Canvas :=
  fun p =>
    if p.1 < W ∧ p.2 < H then
      match m p with
      | some f => f (px p)
      | none => px p
    else px p

/-- Operation `fillRect(0, 0, W, H)` at the current `globalAlpha`. -/
def fillRectFull (W H : ℕ) (α : ℚ) (c : Color) : Canvas → Canvas :=
  pointOp W H fun _ => some (blend α c)

/-- Floor a rational source coordinate to a pixel index. -/
def samplePos (q : ℚ) : ℕ := (⌊q⌋).toNat

/-- Operation `translate(tx, ty); drawImage(src, 0, 0, W, H)`: blit the source
canvas translated by `(tx, ty)`, at the current `globalAlpha`. -/
def drawImageAt (W H : ℕ) (tx ty α : ℚ) (src : Canvas) : Canvas → Canvas :=
  pointOp W H fun p =>
    if tx ≤ p.1 ∧ (p.1 : ℚ) < tx + W ∧ ty ≤ p.2 ∧ (p.2 : ℚ) < ty + H then
      some (blend α (src (samplePos ((p.1 : ℚ) - tx), samplePos ((p.2 : ℚ) - ty))))
    else none

/-- Operation `translate(tx, ty); fillRect(0, 0, W, H)`: fill the translated
full-canvas rectangle. -/
def fillRectAt (W H : ℕ) (tx ty α : ℚ) (c : Color) : Canvas → Canvas :=
  pointOp W H fun p =>
    if tx ≤ p.1 ∧ (p.1 : ℚ) < tx + W ∧ ty ≤ p.2 ∧ (p.2 : ℚ) < ty + H then
      some (blend α c)
    else none

/-- Operation `rect(0, 0, W, sweepH); clip(); drawImage(src, 0, 0, W, H)`: the
color-sweep blit, clipped to the top `sweepH` rows. -/
def clipBlit (W H : ℕ) (sweepH α : ℚ) (src : Canvas) : Canvas → Canvas :=
  pointOp W H fun p =>
    if (p.2 : ℚ) < sweepH then some (blend α (src p)) else none

/-- Pixel of a normalized point on a `W × H` canvas. -/
def pixelOf (W H : ℕ) (q : Pt) : ℕ × ℕ :=
  (samplePos (q.x * W), samplePos (q.y * H))

/-- Stroke painting model: paint the vertex pixels of the stroked
polyline prefix with the stroke color at the current `globalAlpha`. -/
def strokePaint (W H : ℕ) (α : ℚ) (c : Color) (pts : List Pt) : Canvas → Canvas :=
  pointOp W H fun p =>
    if p ∈ pts.map (pixelOf W H) then some (blend α c) else none

/-- Painting an overlay given by a partial pixel map (the hand sprite). -/
def paintMap (W H : ℕ) (m : ℕ × ℕ → Option Color) : Canvas → Canvas :=
  pointOp W H fun p => (m p).map fun c _ => c

/-- Transition directions. -/
inductive TransDir where
  | left | right | up | down
deriving DecidableEq, Repr

/-- Transition types. -/
inductive TransType where
  | cut | pan | fade | zoom | paperSlide
deriving DecidableEq, Repr

/-- The `CameraTransition` record. -/
structure CameraTransitionM where
  type : TransType
  direction : TransDir
  duration : ℚ
deriving DecidableEq, Repr

/-- Pan target offset (`switch(transition.direction)`, identical in both
variants): the previous canvas exits toward `direction`. -/
def panOffset (dir : TransDir) (w h : ℚ) : ℚ × ℚ :=
  match dir with
  | TransDir.right => (w, 0)
  | TransDir.left => (-w, 0)
  | TransDir.up => (0, -h)
  | TransDir.down => (0, h)

/-- The cubic ease-out of the `part_008` pan transition
(`ease = 1 - Math.pow(1 - t, 3)`, line 348). -/
def ease008 (t : ℚ) : ℚ := 1 - (1 - t) ^ 3

/-- Translation applied to the previous composite during the `part_008`
pan transition (`ctx.translate(-offsetX * ease, -offsetY * ease)`). -/
def pan008PrevOffset (dir : TransDir) (progress w h : ℚ) : ℚ × ℚ :=
  ((- (panOffset dir w h).1) * ease008 (1 + progress),
   (- (panOffset dir w h).2) * ease008 (1 + progress))

/-- Translation applied to the incoming blank canvas during the
`part_008` pan transition (`translate(offsetX*(1-ease), offsetY*(1-ease))`). -/
def pan008NewOffset (dir : TransDir) (progress w h : ℚ) : ℚ × ℚ :=
  ((panOffset dir w h).1 * (1 - ease008 (1 + progress)),
   (panOffset dir w h).2 * (1 - ease008 (1 + progress)))

/-- Line styles. -/
inductive LineStyle where
  | pencil | marker | pen
deriving DecidableEq, Repr

/-- The settings fields consumed by the `part_008` draw. -/
structure Settings008 where
  paperColor : Color
  brushThickness : ℚ
  lineStyle : LineStyle
  showHand : Bool

/-- The processed state consumed by the `part_008` draw (`paths`,
`totalPathLength`, the two composite canvases). -/
structure DrawState008 where
  paths : List Path
  totalPathLength : ℕ
  compositeCanvas : Option Canvas
  prevCompositeCanvas : Option Canvas

/-- Effective `globalAlpha` after the line-style switch (lines 407–428):
`1` is set first, then marker 0.95, pen 1, pencil (default) 0.85. -/
def styleAlpha (ls : LineStyle) : ℚ :=
  match ls with
  | LineStyle.marker => 19 / 20
  | LineStyle.pen => 1
  | LineStyle.pencil => 17 / 20

/-- Stroke base color per line style (`#000000`, `#09090b`, `#3f3f46`). -/
def styleColor (ls : LineStyle) : Color :=
  match ls with
  | LineStyle.marker => ⟨0, 0, 0⟩
  | LineStyle.pen => ⟨9, 9, 11⟩
  | LineStyle.pencil => ⟨63, 63, 70⟩

/-- The polyline prefixes stroked by the sketch loop (lines 442–482):
walk the paths in order, take `min(remaining, pathLen)` points of each
until `pointsToDraw` points are on canvas.  The prefix data is
independent of the canvas, so the loop is split into this data pass and
a sequence of paints. -/
def strokePrefixes (pointsToDraw : ℕ) (paths : List Path) : List (List Pt) :=
  (paths.foldl
    (fun (acc : ℕ × List (List Pt)) pathObj =>
      if pointsToDraw ≤ acc.1 then acc
      else
        let drawLen := min (pointsToDraw - acc.1) pathObj.points.length
        if 0 < drawLen then (acc.1 + drawLen, acc.2 ++ [pathObj.points.take drawLen])
        else (acc.1 + drawLen, acc.2))
    (0, [])).2

/-- The hand position and angle produced by the sketch loop: the last
drawn point of the last partially/fully stroked path (only while
`currentProgress < 1`), with the `atan2` heading abstracted by a
parameter. -/
def sketchHand (W H : ℕ) (atan2Q : ℚ → ℚ → ℚ) (progress : ℚ)
    (pointsToDraw : ℕ) (paths : List Path) : Option (ℚ × ℚ) × ℚ :=
  (paths.foldl
    (fun (acc : ℕ × Option (ℚ × ℚ) × ℚ) pathObj =>
      if pointsToDraw ≤ acc.1 then acc
      else
        let drawLen := min (pointsToDraw - acc.1) pathObj.points.length
        if 0 < drawLen ∧ progress < 1 then
          let lastP := pathObj.points.getD (drawLen - 1) ⟨0, 0⟩
          let prevP := pathObj.points.getD (drawLen - 2) ⟨0, 0⟩
          (acc.1 + drawLen,
           some (lastP.x * W, lastP.y * H),
           if 1 < drawLen then
             atan2Q ((lastP.y - prevP.y) * H) ((lastP.x - prevP.x) * W)
           else acc.2.2)
        else (acc.1 + drawLen, acc.2))
    (0, none, 0)).2

/-- The check `transition?.type === 'pan'` (line 343). -/
def isPanTransition (tr : Option CameraTransitionM) : Bool :=
  match tr with
  | some t => decide (t.type = TransType.pan)
  | none => false

/-- Phase 0 pixels: pan camera transition (lines 343–387) — previous
composite (or paper fallback) sliding out, blank paper sliding in. -/
def panStage (W H : ℕ) (dir : TransDir) (progress entryAlpha : ℚ)
    (paper : Color) (prevOpt : Option Canvas) (px0 : Canvas) : Canvas :=
  fillRectAt W H (pan008NewOffset dir progress W H).1
    (pan008NewOffset dir progress W H).2 entryAlpha paper
    (match prevOpt with
     | some prev =>
       drawImageAt W H (pan008PrevOffset dir progress W H).1
         (pan008PrevOffset dir progress W H).2 entryAlpha prev px0
     | none => fillRectFull W H entryAlpha paper px0)

/-- Phase 1 pixels: stroke the drawn path prefixes in order. -/
def strokeStage (W H : ℕ) (α : ℚ) (c : Color) (pointsToDraw : ℕ)
    (paths : List Path) (px0 : Canvas) : Canvas :=
  (strokePrefixes pointsToDraw paths).foldl
    (fun px pr => strokePaint W H α c pr px) px0

/-- Phase 2 pixels: the color-sweep clip blit (lines 485–496), only when
`colorProgress > 0` and a composite canvas exists. -/
def sweepStage (W H : ℕ) (α colorProgress : ℚ) (compOpt : Option Canvas)
    (px : Canvas) : Canvas :=
  match compOpt with
  | some comp =>
    if 0 < colorProgress then clipBlit W H (H * colorProgress) α comp px
    else px
  | none => px

/-- The hand position/angle after the color-sweep and pause logic
(lines 498–517): zig-zag sweep during coloring, hidden in the pause
`1 ≤ progress < 1.1`, otherwise the sketch hand. -/
def handValue (osc : ℚ → ℚ × ℚ) (W H : ℕ) (progress colorProgress : ℚ)
    (compOpt : Option Canvas) (sk : Option (ℚ × ℚ) × ℚ) :
    Option (ℚ × ℚ) × ℚ :=
  match compOpt with
  | some _ =>
    if 0 < colorProgress then
      (some ((1 / 2 + (osc colorProgress).1 * (9 / 20)) * W, colorProgress * H),
       (osc colorProgress).2 * (3 / 10) + 1 / 2)
    else if 1 ≤ progress ∧ progress < 11 / 10 then (none, sk.2) else sk
  | none =>
    if 1 ≤ progress ∧ progress < 11 / 10 then (none, sk.2) else sk

/-- Hand overlay (lines 520–522): drawn only when `showHand` is set and
`progress < 2`. -/
def handStage (W H : ℕ) (handR : ℚ × ℚ × ℚ × Bool → ℕ × ℕ → Option Color)
    (showHand : Bool) (progress : ℚ) (hand : Option (ℚ × ℚ) × ℚ)
    (px : Canvas) : Canvas :=
  if showHand ∧ progress < 2 then
    match hand.1 with
    | some hp => paintMap W H (handR (hp.1, hp.2, hand.2, 1 ≤ progress)) px
    | none => px
  else px

/-- Everything the `part_008` draw does after the initial background
fill, as a function of the entry `globalAlpha` and the post-background
canvas. -/
def draw008Body (osc : ℚ → ℚ × ℚ) (atan2Q : ℚ → ℚ → ℚ)
    (handR : ℚ × ℚ × ℚ × Bool → ℕ × ℕ → Option Color)
    (st8 : DrawState008) (tr : Option CameraTransitionM)
    (settings : Settings008) (progress : ℚ) (W H : ℕ)
    (entryAlpha : ℚ) (px0 : Canvas) : CtxState :=
  -- Phase 0: pan camera transition (negative progress), lines 343–387.
  if progress < 0 ∧ isPanTransition tr = true then
    ⟨panStage W H (tr.getD ⟨TransType.pan, TransDir.right, 1⟩).direction
      progress entryAlpha settings.paperColor st8.prevCompositeCanvas px0,
     entryAlpha⟩
  -- `if (paths.length === 0) return` (line 390).
  else if st8.paths = [] then ⟨px0, entryAlpha⟩
  else
    let α := styleAlpha settings.lineStyle
    let sketchProgress := min (max progress 0) 1
    let colorProgress := max ((progress - 11 / 10) / (9 / 10)) 0
    let pointsToDraw :=
      if 1 ≤ progress then st8.totalPathLength
      else (⌊(st8.totalPathLength : ℚ) * sketchProgress⌋).toNat
    let px1 := strokeStage W H α (styleColor settings.lineStyle)
      pointsToDraw st8.paths px0
    let sk := sketchHand W H atan2Q progress pointsToDraw st8.paths
    let px2 := sweepStage W H α colorProgress st8.compositeCanvas px1
    let hand := handValue osc W H progress colorProgress st8.compositeCanvas sk
    ⟨handStage W H handR settings.showHand progress hand px2, α⟩

/-- The `part_008` per-frame draw as a context-state transformer: fill
the background with the paper color at the *inherited* `globalAlpha`
(lines 332–333), then run the body. -/
def draw008 (osc : ℚ → ℚ × ℚ) (atan2Q : ℚ → ℚ → ℚ)
    (handR : ℚ × ℚ × ℚ × Bool → ℕ × ℕ → Option Color)
    (st8 : DrawState008) (tr : Option CameraTransitionM)
    (settings : Settings008) (progress : ℚ) (W H : ℕ)
    (ctx : CtxState) : CtxState :=
  draw008Body osc atan2Q handR st8 tr settings progress W H ctx.alpha
    (fillRectFull W H ctx.alpha settings.paperColor ctx.pixels)

/-- The `processLayers` job of `part_008` (lines 109–319): process each layer's
raster in order, concatenating `allPaths` and accumulating `totalLen`
(`layerPaths.forEach(p => totalLen += p.points.length)`); the pair is
stored as the `paths` / `totalPathLength` state that `draw` consumes. -/
def processLayers008 (dirQ : ℤ → ℤ → Dir) (strengthOf : List (ℕ × ℕ) → ℚ)
    (s smoothness : ℚ) (rasters : List (ℕ × ℕ × Raster)) : List Path × ℕ :=
  rasters.foldl
    (fun (acc : List Path × ℕ) r =>
      (acc.1 ++ processCanvas008 dirQ strengthOf r.1 r.2.1 r.2.2 s smoothness,
       acc.2 + ((processCanvas008 dirQ strengthOf r.1 r.2.1 r.2.2 s smoothness).map
         (fun p => p.points.length)).sum))
    ([], 0)

/-- The per-item total recomputed by the `part_007` compositor
(`let totalLen = 0; item.paths.forEach(p => totalLen += p.points.length)`,
line 642). -/
def compositorTotalLen (item : ProcessedItem) : ℕ :=
  item.paths.foldl (fun acc p => acc + p.points.length) 0

/-! ## Camera-transition rendering of `part_007` (`draw`, lines 488–616)

The transition branch of the `part_007` draw is modelled as the list of
drawing operations it issues (each with its translation / scale / alpha
arguments); the quadratic ease-in-out curve drives them. -/

/-- The easing curve of `part_007`
(`t < 0.5 ? 2*t*t : -1 + (4 - 2*t)*t`, line 493 — quadratic
ease-in-out). -/
def ease007 (t : ℚ) : ℚ := if t < 1 / 2 then 2 * t * t else -1 + (4 - 2 * t) * t

/-- One drawing operation of the `part_007` transition branch. -/
inductive TransOp where
  | prevImage (tx ty : ℚ)
  | background (tx ty : ℚ)
  | prevFade (alpha : ℚ)
  | bgFade (alpha : ℚ)
  | prevZoom (scale alpha : ℚ)
  | bgZoom (scale alpha : ℚ)
  | whiteFill
  | bgSlide (tx ty : ℚ)
deriving DecidableEq, Repr

/-- The operations issued by the `part_007` transition branch at a given
negative progress (`t = 1 + progress`), per transition type.  `cut`
never reaches this branch (`transition.type !== 'cut'`, line 488). -/
def transitionOps007 (tr : CameraTransitionM) (progress : ℚ)
    (hasPrev : Bool) : List TransOp :=
  let t := 1 + progress
  let e := ease007 t
  let w := CANVAS_WIDTH
  let h := CANVAS_HEIGHT
  match tr.type with
  | TransType.cut => []
  | TransType.pan =>
    (if hasPrev then
      [TransOp.prevImage (-(panOffset tr.direction w h).1 * e)
        (-(panOffset tr.direction w h).2 * e)]
     else []) ++
    [TransOp.background ((panOffset tr.direction w h).1 * (1 - e))
      ((panOffset tr.direction w h).2 * (1 - e))]
  | TransType.fade =>
    (if hasPrev then [TransOp.prevFade (1 - t)] else []) ++ [TransOp.bgFade t]
  | TransType.zoom =>
    (if hasPrev then [TransOp.prevZoom (1 + t * (1 / 5)) (1 - e)] else []) ++
    [TransOp.bgZoom (4 / 5 + e * (1 / 5)) e]
  | TransType.paperSlide =>
    (if hasPrev then [TransOp.prevImage 0 0] else [TransOp.whiteFill]) ++
    [TransOp.bgSlide ((panOffset tr.direction w h).1 * (1 - e))
      ((panOffset tr.direction w h).2 * (1 - e))]

/-- Fixture: 8×8 raster, opaque black top row, rest opaque white (one
traced path). -/
def imgRowTop : Raster := fun _ y =>
  if y = 0 then ⟨0, 0, 0, 255⟩ else ⟨255, 255, 255, 255⟩

/-- Fixture: 8×8 raster, opaque black bottom row, rest opaque white (one
traced path, lower on the canvas). -/
def imgRowBot : Raster := fun _ y =>
  if y = 7 then ⟨0, 0, 0, 255⟩ else ⟨255, 255, 255, 255⟩

/-! ## Claim C7: item order of the processor -/

/-- Fixture layer A. -/
def layerA : ImageLayerM := ⟨"A", 0, 0, 100, 100⟩

/-- Fixture layer B. -/
def layerB : ImageLayerM := ⟨"B", 0, 0, 100, 100⟩

/-- Fixture analysis rasteriser: layer A rasterises to the top-row
image (its single path starts high), every other layer to the
bottom-row image (its single path starts low). -/
def rasterByIdC7 : ImageLayerM → ℕ × ℕ × Raster := fun l =>
  if l.id = "A" then (8, 8, imgRowTop) else (8, 8, imgRowBot)

/-- Inert fixture text rasteriser. -/
def noTextRaster : TextElementM → ℕ × ℕ × Raster := fun _ => (0, 0, imgClear)

/-- The processed items of the two-layer fixture `[B, A]` with
`drawingOrder = top-to-bottom`. -/
def c7Items : List ProcessedItem :=
  processItems rasterByIdC7 (fun _ => imgClear) noTextRaster (fun _ => imgClear)
    DrawingOrder.topToBottom 1 [layerB, layerA] []

/-- Inert default item. -/
def defaultItem : ProcessedItem := ⟨"", ItemType.image, [], imgClear, 0, 0, 0, 0⟩

/-- y coordinate at which an item's first path starts. -/
def itemFirstY (it : ProcessedItem) : ℚ :=
  ((it.paths.headD defaultPath).points.headD ⟨0, 0⟩).y

/-- C4 counterexample fixtures. -/
def whiteC : Color := ⟨255, 255, 255⟩

/-- Pure red composite color. -/
def redC : Color := ⟨255, 0, 0⟩

/-- Pencil settings (hand hidden; the hand overlay plays no role). -/
def settingsPencil : Settings008 := ⟨whiteC, 3, LineStyle.pencil, false⟩

/-- Pen settings. -/
def settingsPen : Settings008 := ⟨whiteC, 3, LineStyle.pen, false⟩

/-- A 6-point fixture path (vertex pixel (2,2) on an 8×8 canvas). -/
def pathC : Path :=
  ⟨[⟨1/4, 1/4⟩, ⟨1/4, 1/4⟩, ⟨1/4, 1/4⟩, ⟨1/4, 1/4⟩, ⟨1/4, 1/4⟩, ⟨1/4, 1/4⟩], 1⟩

/-- Draw state fixture: one path, total 6 points, solid red composite. -/
def st8C : DrawState008 := ⟨[pathC], 6, some (fun _ => redC), none⟩

/-- Inert parameters for the real-valued hand helpers. -/
def oscZ : ℚ → ℚ × ℚ := fun _ => (0, 0)

/-- Inert `atan2` stand-in. -/
def atan2Z : ℚ → ℚ → ℚ := fun _ _ => 0

/-- Inert hand sprite. -/
def handZ : ℚ × ℚ × ℚ × Bool → ℕ × ℕ → Option Color := fun _ _ => none

/-- A fresh context: white canvas, `globalAlpha = 1`. -/
def ctxFresh : CtxState := ⟨fun _ => whiteC, 1⟩

/-- The smart-flow sort key of a cluster given as a finite index set:
mean center y times 5 plus mean center x. -/
def clusterKeyS (ps : List Path) (S : Finset ℕ) : ℚ :=
  ((S.sum fun i => boxCY (boxAtL ps i)) / S.card) * 5 +
    (S.sum fun i => boxCX (boxAtL ps i)) / S.card

/-- Witness fixture: a path near the top-left corner. -/
def pW0 : Path := ⟨[⟨1/10, 1/10⟩], 1⟩

/-- Witness fixture: a path near the bottom-right corner (its padded
box does not touch `pW0`'s). -/
def pW1 : Path := ⟨[⟨9/10, 9/10⟩], 1⟩

/-- Two-cluster witness input. -/
def psW : List Path := [pW0, pW1]

/-! ## Theorems -/

/-! ### Threshold monotonicity lemmas -/

/-- A magnitude at least a higher threshold is at least a lower one. -/
theorem magGE_mono {mSq : ℤ} {t₁ t₂ : ℚ} (hle : t₂ ≤ t₁)
    (h : magGE mSq t₁ = true) : magGE mSq t₂ = true := by
  unfold magGE at h ⊢
  rcases Bool.or_eq_true_iff.mp h with h1 | h1
  · exact Bool.or_eq_true_iff.mpr (Or.inl (by
      simp only [decide_eq_true_eq] at h1 ⊢; linarith))
  · by_cases h2 : t₂ ≤ 0
    · exact Bool.or_eq_true_iff.mpr (Or.inl (by simpa using h2))
    · refine Bool.or_eq_true_iff.mpr (Or.inr ?_)
      simp only [decide_eq_true_eq] at h1 ⊢
      push_neg at h2
      have : t₂^2 ≤ t₁^2 := by nlinarith
      linarith

theorem threshold_antitone {s₁ s₂ : ℚ} (h : s₁ ≤ s₂) :
    threshold s₂ ≤ threshold s₁ := by
  unfold threshold; linarith

theorem edges007_mono {w h : ℕ} {img : Raster} {s₁ s₂ : ℚ} (hs : s₁ ≤ s₂)
    {x y : ℕ} (he : edges007 w h img s₁ x y = true) :
    edges007 w h img s₂ x y = true := by
  unfold edges007 at he ⊢
  rcases Bool.and_eq_true_iff.mp he with ⟨h1, h2⟩
  exact Bool.and_eq_true_iff.mpr ⟨h1, magGE_mono (threshold_antitone hs) h2⟩

theorem edges008_mono (dirQ : ℤ → ℤ → Dir) {w h : ℕ} {img : Raster}
    {s₁ s₂ : ℚ} (hs : s₁ ≤ s₂) {x y : ℕ}
    (he : edges008 dirQ w h img s₁ x y = true) :
    edges008 dirQ w h img s₂ x y = true := by
  unfold edges008 at he ⊢
  rcases Bool.and_eq_true_iff.mp he with ⟨he', h4⟩
  rcases Bool.and_eq_true_iff.mp he' with ⟨he'', h3⟩
  rcases Bool.and_eq_true_iff.mp he'' with ⟨h1, h2⟩
  exact Bool.and_eq_true_iff.mpr
    ⟨Bool.and_eq_true_iff.mpr
      ⟨Bool.and_eq_true_iff.mpr ⟨h1, magGE_mono (threshold_antitone hs) h2⟩, h3⟩, h4⟩

theorem edgeCount007_mono {w h : ℕ} {img : Raster} {s₁ s₂ : ℚ}
    (hs : s₁ ≤ s₂) : edgeCount007 w h img s₁ ≤ edgeCount007 w h img s₂ := by
  apply Finset.card_le_card
  intro p hp
  rw [Finset.mem_filter] at hp ⊢
  exact ⟨hp.1, edges007_mono hs hp.2⟩

theorem edgeCount008_mono (dirQ : ℤ → ℤ → Dir) {w h : ℕ} {img : Raster}
    {s₁ s₂ : ℚ} (hs : s₁ ≤ s₂) :
    edgeCount008 dirQ w h img s₁ ≤ edgeCount008 dirQ w h img s₂ := by
  apply Finset.card_le_card
  intro p hp
  rw [Finset.mem_filter] at hp ⊢
  exact ⟨hp.1, edges008_mono dirQ hs hp.2⟩

/-- C1. Edge-threshold monotonicity: for a fixed raster and sensitivities
`s₁ ≤ s₂` in `[0,1]`, both edge extractors (`generatePaths` in `part_007`
and the NMS variant `processCanvas` in `part_008`, for every direction
quantisation) mark at sensitivity `s₂` at least as many edge pixels as at
`s₁` — raising `edgeSensitivity` never decreases the edge-pixel count. -/
theorem C1_edge_threshold_monotone (w h : ℕ) (img : Raster)
    (dirQ : ℤ → ℤ → Dir) (s₁ s₂ : ℚ)
    (h₀ : 0 ≤ s₁) (h₁₂ : s₁ ≤ s₂) (h₁ : s₂ ≤ 1) :
    edgeCount007 w h img s₁ ≤ edgeCount007 w h img s₂ ∧
    edgeCount008 dirQ w h img s₁ ≤ edgeCount008 dirQ w h img s₂ :=
  ⟨edgeCount007_mono h₁₂, edgeCount008_mono dirQ h₁₂⟩

/-- Witness for C1 at the concrete black/white fixture with `s₁ = 0`,
`s₂ = 1`. -/
theorem C1_edge_threshold_monotone_witness :
    edgeCount007 4 4 imgBW 0 ≤ edgeCount007 4 4 imgBW 1 ∧
    edgeCount008 (fun _ _ => Dir.d0) 4 4 imgBW 0 ≤
      edgeCount008 (fun _ _ => Dir.d0) 4 4 imgBW 1 :=
  C1_edge_threshold_monotone 4 4 imgBW (fun _ _ => Dir.d0) 0 1
    (by norm_num) (by norm_num) (by norm_num)

/-! ### C8: transparent pixels and the edge mask -/

theorem gray007_of_transparent (img : Raster) (x y : ℕ)
    (ha : (img x y).a < 10) : gray007 img x y = 255 := by
  unfold gray007
  rw [if_pos ha]

/-- In `part_007`, a pixel whose whole 3×3 Sobel window is transparent
has zero gradient, hence is never an edge (the threshold is positive for
`s ≤ 1`). -/
theorem edges007_of_transparent_window (w h : ℕ) (img : Raster) (s : ℚ)
    (hs : s ≤ 1) (x y : ℕ)
    (hwin : ∀ i j, x - 1 ≤ i → i ≤ x + 1 → y - 1 ≤ j → j ≤ y + 1 →
      (img i j).a < 10) :
    edges007 w h img s x y = false := by
  have h255 : ∀ i j, x - 1 ≤ i → i ≤ x + 1 → y - 1 ≤ j → j ≤ y + 1 →
      gray007 img i j = 255 := fun i j h1 h2 h3 h4 =>
    gray007_of_transparent img i j (hwin i j h1 h2 h3 h4)
  have hx0 : sobelGX (gray007 img) x y = 0 := by
    unfold sobelGX
    rw [h255 (x-1) (y-1) le_rfl (by omega) le_rfl (by omega),
        h255 (x+1) (y-1) (by omega) le_rfl le_rfl (by omega),
        h255 (x-1) y le_rfl (by omega) (by omega) (by omega),
        h255 (x+1) y (by omega) le_rfl (by omega) (by omega),
        h255 (x-1) (y+1) le_rfl (by omega) (by omega) le_rfl,
        h255 (x+1) (y+1) (by omega) le_rfl (by omega) le_rfl]
    ring
  have hy0 : sobelGY (gray007 img) x y = 0 := by
    unfold sobelGY
    rw [h255 (x-1) (y-1) le_rfl (by omega) le_rfl (by omega),
        h255 x (y-1) (by omega) (by omega) le_rfl (by omega),
        h255 (x+1) (y-1) (by omega) le_rfl le_rfl (by omega),
        h255 (x-1) (y+1) le_rfl (by omega) (by omega) le_rfl,
        h255 x (y+1) (by omega) (by omega) (by omega) le_rfl,
        h255 (x+1) (y+1) (by omega) le_rfl (by omega) le_rfl]
    ring
  have hmag : magSq w h (gray007 img) x y = 0 := by
    unfold magSq
    rw [hx0, hy0]
    simp
  have hpos : 0 < threshold s := by unfold threshold; linarith
  unfold edges007
  rw [hmag]
  have : magGE 0 (threshold s) = false := by
    unfold magGE
    rw [Bool.or_eq_false_iff]
    constructor
    · simpa using not_le.mpr hpos
    · simp only [decide_eq_false_iff_not, not_le, Int.cast_zero]
      positivity
  rw [this, Bool.and_false]

/-- C8 counterexample: the claim, read against the `processCanvas`
luminance conversion (`part_008` lines 131–135) that its sources cite,
is false — a fully transparent pixel (alpha 0 < 10) is assigned gray 0,
not 255. -/
theorem C8_counterexample_gray008 :
    (imgClear 1 1).a < 10 ∧ gray008 imgClear 1 1 ≠ 255 := by
  constructor
  · decide
  · decide

/-- C8 amended: in the `generatePaths` extractor of `part_007`, every
pixel with alpha below 10 is assigned gray 255, and every pixel whose
entire 3×3 window is transparent is not marked as an edge (for any
sensitivity `s ≤ 1`); the `processCanvas` variant of `part_008` performs
no alpha special-casing. -/
theorem C8_transparent_background (img : Raster) :
    (∀ x y, (img x y).a < 10 → gray007 img x y = 255) ∧
    (∀ w h (s : ℚ), s ≤ 1 → ∀ x y,
      (∀ i j, x - 1 ≤ i → i ≤ x + 1 → y - 1 ≤ j → j ≤ y + 1 →
        (img i j).a < 10) →
      edges007 w h img s x y = false) :=
  ⟨gray007_of_transparent img,
   fun w h s hs x y hwin => edges007_of_transparent_window w h img s hs x y hwin⟩

/-- Witness for C8 at the fully transparent fixture. -/
theorem C8_transparent_background_witness :
    gray007 imgClear 0 0 = 255 ∧ edges007 4 4 imgClear 1 1 1 = false :=
  ⟨(C8_transparent_background imgClear).1 0 0 (by decide),
   (C8_transparent_background imgClear).2 4 4 1 (by norm_num) 1 1
     (fun i j _ _ _ _ => by simp [imgClear])⟩

/-! ### Length invariants for the tracer -/

theorem tracePixelPaths_length (edge : ℕ → ℕ → Bool) (w h : ℕ) :
    ∀ tr ∈ tracePixelPaths edge w h, 5 < tr.length := by
  unfold tracePixelPaths
  suffices H : ∀ (l : List (ℕ × ℕ)) (st : Finset (ℕ × ℕ) × List (List (ℕ × ℕ))),
      (∀ tr ∈ st.2, 5 < tr.length) →
      ∀ tr ∈ (l.foldl (traceStep edge w h) st).2, 5 < tr.length by
    exact H (interiorScan w h) (∅, []) (by simp)
  intro l
  induction l with
  | nil => intro st hst; simpa using hst
  | cons p rest ih =>
    intro st hst
    rw [List.foldl_cons]
    apply ih
    simp only [traceStep]
    split
    · split
      · rename_i hlen
        intro tr htr
        rcases List.mem_append.mp htr with h | h
        · exact hst tr h
        · rw [List.mem_singleton] at h
          exact h ▸ hlen
      · exact hst
    · exact hst

theorem smoothPath_length (points : List Pt) :
    (smoothPath points).length = points.length := by
  unfold smoothPath
  split
  · rfl
  · simp

theorem smooth3Go_length (prev : Pt) (l : List Pt) :
    (smooth3Go prev l).length = l.length := by
  induction l generalizing prev with
  | nil => rfl
  | cons cur rest ih =>
    cases rest with
    | nil => rfl
    | cons next rest' =>
      simp only [smooth3Go, List.length_cons]
      rw [ih]
      simp

theorem smooth3_length (pts : List Pt) : (smooth3 pts).length = pts.length := by
  cases pts with
  | nil => rfl
  | cons p rest => simp [smooth3, smooth3Go_length]

theorem smooth3_iter_length (n : ℕ) (pts : List Pt) :
    (smooth3^[n] pts).length = pts.length := by
  induction n generalizing pts with
  | zero => rfl
  | succ k ih => rw [Function.iterate_succ_apply, ih, smooth3_length]

theorem normPts_length (w h : ℕ) (l : List (ℕ × ℕ)) :
    (normPts w h l).length = l.length := by
  unfold normPts; simp

theorem generatePaths007_length (w h : ℕ) (img : Raster) (s : ℚ) :
    ∀ p ∈ generatePaths007 w h img s, 5 < p.points.length := by
  unfold generatePaths007
  intro p hp
  rcases List.mem_map.mp hp with ⟨tr, htr, rfl⟩
  simp only [smoothPath_length, normPts_length]
  exact tracePixelPaths_length _ w h tr htr

theorem processCanvas008_length (dirQ : ℤ → ℤ → Dir)
    (strengthOf : List (ℕ × ℕ) → ℚ) (w h : ℕ) (img : Raster)
    (s smoothness : ℚ) :
    ∀ p ∈ processCanvas008 dirQ strengthOf w h img s smoothness,
      5 < p.points.length := by
  unfold processCanvas008
  intro p hp
  rcases List.mem_map.mp hp with ⟨q, hq, rfl⟩
  have hq' : q ∈ (tracePixelPaths (edges008 dirQ w h img s) w h).map
      (fun tr => (⟨normPts w h tr, strengthOf tr⟩ : Path)) :=
    (List.perm_insertionSort _ _).mem_iff.mp hq
  rcases List.mem_map.mp hq' with ⟨tr, htr, rfl⟩
  simp only [smooth3_iter_length, normPts_length]
  exact tracePixelPaths_length _ w h tr htr

theorem pickStep_foldl_inv (pathAt' : ℕ → Path) (cur : ℕ) (l : List ℕ) :
    ∀ (p₀ : ℕ) (b₀ : Option (ℕ × ℚ)), (∀ q ∈ b₀, q.1 < p₀) →
      (l.foldl (pickStep pathAt' cur) (p₀, b₀)).1 = p₀ + l.length ∧
      ∀ q ∈ (l.foldl (pickStep pathAt' cur) (p₀, b₀)).2, q.1 < p₀ + l.length := by
  induction l with
  | nil => intro p₀ b₀ hb; simpa using hb
  | cons x xs ih =>
    intro p₀ b₀ hb
    rw [List.foldl_cons]
    have hstep : ∀ q ∈ (pickStep pathAt' cur (p₀, b₀) x).2, q.1 < p₀ + 1 := by
      intro q hq
      unfold pickStep at hq
      dsimp only at hq
      rcases hd : chainDist pathAt' cur x with _ | d <;> rw [hd] at hq
      · exact Nat.lt_succ_of_lt (hb q hq)
      · rcases b₀ with _ | best <;> dsimp only at hq
        · simp only [Option.mem_def, Option.some_inj] at hq
          subst hq; exact Nat.lt_succ_self p₀
        · split at hq
          · simp only [Option.mem_def, Option.some_inj] at hq
            subst hq; exact Nat.lt_succ_self p₀
          · exact Nat.lt_succ_of_lt (hb q hq)
    rw [show pickStep pathAt' cur (p₀, b₀) x
        = (p₀ + 1, (pickStep pathAt' cur (p₀, b₀) x).2) from rfl]
    have hmain := ih (p₀ + 1) ((pickStep pathAt' cur (p₀, b₀) x).2) hstep
    constructor
    · rw [hmain.1]; simp; omega
    · intro q hq
      have := hmain.2 q hq
      simp only [List.length_cons]
      omega

theorem pickNext_lt (pathAt' : ℕ → Path) (cur : ℕ) (rem : List ℕ)
    (hne : rem ≠ []) : pickNext pathAt' cur rem < rem.length := by
  unfold pickNext
  split
  · rename_i best hr
    have h := pickStep_foldl_inv pathAt' cur rem 0 none (by simp)
    have := h.2 best (by rw [hr]; rfl)
    simpa using this
  · exact List.length_pos.mpr hne

/-! ### The organizer is a permutation (C10 machinery) -/

theorem mem_bfsAdds {ov : ℕ → ℕ → Bool} {n : ℕ} {visited : Finset ℕ}
    {cur d : ℕ} :
    d ∈ bfsAdds ov n visited cur ↔ d < n ∧ d ∉ visited ∧ ov cur d = true := by
  unfold bfsAdds
  simp [List.mem_filter, List.mem_range]

theorem bfsAdds_nodup (ov : ℕ → ℕ → Bool) (n : ℕ) (visited : Finset ℕ)
    (cur : ℕ) : (bfsAdds ov n visited cur).Nodup :=
  (List.nodup_range n).filter _

theorem bfsGo_perm (ov : ℕ → ℕ → Bool) (n : ℕ) :
    ∀ (fuel : ℕ) (queue : List ℕ) (visited : Finset ℕ) (cluster : List ℕ),
      ∃ Δ : List ℕ,
        (bfsGo ov n fuel queue visited cluster).1 = cluster ++ Δ ∧
        (bfsGo ov n fuel queue visited cluster).2 = visited ∪ Δ.toFinset ∧
        Δ.Nodup ∧ ∀ d ∈ Δ, d ∉ visited ∧ d < n := by
  intro fuel
  induction fuel with
  | zero =>
    intro queue visited cluster
    exact ⟨[], by simp [bfsGo], by simp [bfsGo], by simp, by simp⟩
  | succ f ih =>
    intro queue visited cluster
    match queue with
    | [] => exact ⟨[], by simp [bfsGo], by simp [bfsGo], by simp, by simp⟩
    | cur :: rest =>
      simp only [bfsGo]
      obtain ⟨Δ', h1, h2, h3, h4⟩ := ih (rest ++ bfsAdds ov n visited cur)
        (visited ∪ (bfsAdds ov n visited cur).toFinset)
        (cluster ++ bfsAdds ov n visited cur)
      refine ⟨bfsAdds ov n visited cur ++ Δ', ?_, ?_, ?_, ?_⟩
      · rw [h1, List.append_assoc]
      · rw [h2, List.toFinset_append, Finset.union_assoc]
      · refine List.Nodup.append (bfsAdds_nodup ov n visited cur) h3 ?_
        intro a ha hd'
        exact ((h4 a hd').1
          (Finset.mem_union_right _ (List.mem_toFinset.mpr ha))).elim
      · intro d hd
        rcases List.mem_append.mp hd with h | h
        · have := mem_bfsAdds.mp h
          exact ⟨this.2.1, this.1⟩
        · have := h4 d h
          exact ⟨fun hv => this.1 (Finset.mem_union_left _ hv), this.2⟩

theorem clustersGo_spec (ov : ℕ → ℕ → Bool) (n : ℕ) :
    ∀ (k i : ℕ) (visited : Finset ℕ), n - i ≤ k →
      (∀ j, j < i → j ∈ visited) →
      (clustersGo ov n i visited).flatten.Nodup ∧
      (clustersGo ov n i visited).flatten.toFinset = Finset.range n \ visited := by
  intro k
  induction k with
  | zero =>
    intro i visited hk hj
    rw [clustersGo, dif_neg (by omega)]
    refine ⟨by simp, ?_⟩
    ext x
    simp only [List.flatten_nil, List.toFinset_nil, Finset.not_mem_empty,
      false_iff, Finset.mem_sdiff, Finset.mem_range, not_and, not_not]
    intro hx
    exact hj x (by omega)
  | succ k ih =>
    intro i visited hk hj
    by_cases hin : i < n
    · by_cases hiv : i ∈ visited
      · rw [clustersGo, dif_pos hin, if_pos hiv]
        exact ih (i + 1) visited (by omega)
          (fun j hji => by rcases Nat.lt_succ_iff_lt_or_eq.mp hji with h | h
                           · exact hj j h
                           · exact h ▸ hiv)
      · rw [clustersGo, dif_pos hin, if_neg hiv]
        obtain ⟨Δ, h1, h2, h3, h4⟩ := bfsGo_perm ov n (n + 1) [i] (insert i visited) [i]
        have hvis' : ∀ j, j < i + 1 →
            j ∈ insert i visited ∪ Δ.toFinset := by
          intro j hji
          rcases Nat.lt_succ_iff_lt_or_eq.mp hji with h | h
          · exact Finset.mem_union_left _ (Finset.mem_insert_of_mem (hj j h))
          · exact Finset.mem_union_left _ (h ▸ Finset.mem_insert_self i visited)
        obtain ⟨hnd', hfin'⟩ := ih (i + 1) (insert i visited ∪ Δ.toFinset)
          (by omega) hvis'
        rw [h1, h2]
        constructor
        · rw [List.flatten_cons]
          refine List.Nodup.append ?_ hnd' ?_
          · refine List.Nodup.append (by simp) h3 ?_
            intro a ha hd'
            have : a = i := by simpa using ha
            subst this
            exact ((h4 a hd').1 (Finset.mem_insert_self _ _)).elim
          · intro a ha hflat
            have hmem : a ∈ (clustersGo ov n (i + 1)
                (insert i visited ∪ Δ.toFinset)).flatten.toFinset :=
              List.mem_toFinset.mpr hflat
            rw [hfin'] at hmem
            have hnotv := (Finset.mem_sdiff.mp hmem).2
            rcases List.mem_append.mp ha with h | h
            · have : a = i := by simpa using h
              subst this
              exact hnotv (Finset.mem_union_left _ (Finset.mem_insert_self _ _))
            · exact hnotv (Finset.mem_union_right _ (List.mem_toFinset.mpr h))
        · rw [List.flatten_cons, List.toFinset_append, hfin']
          have hΔx : ∀ x ∈ Δ, x ≠ i ∧ x ∉ visited ∧ x < n := by
            intro x hx
            have := h4 x hx
            simp only [Finset.mem_insert, not_or] at this
            exact ⟨this.1.1, this.1.2, this.2⟩
          ext x
          simp only [List.toFinset_append, List.toFinset_cons, List.toFinset_nil,
            insert_emptyc_eq, Finset.mem_union, Finset.mem_insert,
            Finset.mem_sdiff, Finset.mem_range, List.mem_toFinset,
            Finset.mem_singleton]
          constructor
          · intro hmem
            rcases hmem with (rfl | hxΔ) | ⟨hxn, hxv⟩
            · exact ⟨hin, hiv⟩
            · obtain ⟨_, h2', h3'⟩ := hΔx x hxΔ
              exact ⟨h3', h2'⟩
            · refine ⟨hxn, fun hv => hxv ?_⟩
              tauto
          · intro hmem
            obtain ⟨hxn, hxv⟩ := hmem
            by_cases hxi : x = i
            · tauto
            · by_cases hxΔ : x ∈ Δ
              · tauto
              · refine Or.inr ⟨hxn, fun hv => ?_⟩
                tauto
    · rw [clustersGo, dif_neg hin]
      refine ⟨by simp, ?_⟩
      ext x
      simp only [List.flatten_nil, List.toFinset_nil, Finset.not_mem_empty,
        false_iff, Finset.mem_sdiff, Finset.mem_range, not_and, not_not]
      intro hx
      exact hj x (by omega)

theorem clustersOf_flatten_perm (ov : ℕ → ℕ → Bool) (n : ℕ) :
    (clustersOf ov n).flatten.Perm (List.range n) := by
  obtain ⟨hnd, hfin⟩ := clustersGo_spec ov n n 0 ∅ (by omega)
    (fun j hj => absurd hj (by omega))
  have hfin' : (clustersOf ov n).flatten.toFinset = (List.range n).toFinset := by
    have hr : (List.range n).toFinset = Finset.range n := by ext x; simp
    rw [hr]
    unfold clustersOf
    rw [hfin]
    simp
  have hnd2 : (clustersOf ov n).flatten.Nodup := hnd
  have := List.toFinset_eq_iff_perm_dedup.mp hfin'
  rwa [List.dedup_eq_self.mpr hnd2, List.dedup_eq_self.mpr (List.nodup_range n)]
    at this

theorem getD_cons_eraseIdx_perm :
    ∀ (l : List ℕ) (i : ℕ), i < l.length →
      (l.getD i 0 :: l.eraseIdx i).Perm l := by
  intro l
  induction l with
  | nil => intro i hi; simp at hi
  | cons x xs ih =>
    intro i hi
    cases i with
    | zero => simp
    | succ k =>
      have hk : k < xs.length := by simpa using hi
      have hperm := ih k hk
      have hrw : (x :: xs).getD (k + 1) 0 :: (x :: xs).eraseIdx (k + 1)
          = xs.getD k 0 :: x :: xs.eraseIdx k := rfl
      rw [hrw]
      exact (List.Perm.swap x (xs.getD k 0) (xs.eraseIdx k)).trans (hperm.cons x)

theorem chainGreedy_perm (pathAt' : ℕ → Path) :
    ∀ (fuel : ℕ) (rem : List ℕ), rem.length = fuel → ∀ cur,
      (chainGreedy pathAt' fuel cur rem).Perm ((cur :: rem).map pathAt') := by
  intro fuel
  induction fuel with
  | zero =>
    intro rem hlen cur
    have : rem = [] := List.length_eq_zero.mp hlen
    subst this
    simp [chainGreedy]
  | succ f ih =>
    intro rem hlen cur
    match rem, hlen with
    | x :: xs, hlen =>
      have hne : (x :: xs) ≠ ([] : List ℕ) := by simp
      have hblt := pickNext_lt pathAt' cur (x :: xs) hne
      have hlen' : ((x :: xs).eraseIdx (pickNext pathAt' cur (x :: xs))).length = f := by
        rw [List.length_eraseIdx, if_pos hblt]
        simpa using congrArg (· - 1) hlen
      have ihc := ih _ hlen' ((x :: xs).getD (pickNext pathAt' cur (x :: xs)) 0)
      have hperm := getD_cons_eraseIdx_perm (x :: xs) _ hblt
      simp only [chainGreedy]
      rw [List.map_cons]
      exact (ihc.cons (pathAt' cur)).trans ((hperm.map pathAt').cons (pathAt' cur))

theorem chainCluster_perm (pathAt' : ℕ → Path) (boxAt : ℕ → Box) (c : List ℕ) :
    (chainCluster pathAt' boxAt c).Perm (c.map pathAt') := by
  unfold chainCluster
  have hperm := List.perm_insertionSort
    (fun a b => (boxAt a).minY ≤ (boxAt b).minY) c
  split
  · rename_i heq
    rw [heq] at hperm
    have : c = [] := hperm.symm.eq_nil
    subst this
    simp
  · rename_i first rest heq
    rw [heq] at hperm
    exact (chainGreedy_perm pathAt' rest.length rest rfl first).trans
      (hperm.map pathAt')

theorem flatten_map_perm_of_forall (L : List (List ℕ))
    (f g : List ℕ → List Path) (h : ∀ c ∈ L, (f c).Perm (g c)) :
    ((L.map f).flatten).Perm ((L.map g).flatten) := by
  induction L with
  | nil => rfl
  | cons c rest ih =>
    simp only [List.map_cons, List.flatten_cons]
    exact (h c (List.mem_cons_self c rest)).append
      (ih fun c' hc' => h c' (List.mem_cons_of_mem c hc'))

theorem map_pathAt_range (ps : List Path) :
    (List.range ps.length).map (pathAt ps) = ps := by
  apply List.ext_getElem
  · simp
  · intro i h1 h2
    simp only [List.getElem_map, List.getElem_range]
    exact List.getD_eq_getElem ps defaultPath h2

theorem sortPathsSmart_perm_helper (ps : List Path) :
    (sortPathsSmart ps).Perm ps := by
  unfold sortPathsSmart
  split
  · rename_i hemp
    rw [List.isEmpty_iff.mp hemp]
  · have hsorted := List.perm_insertionSort
      (fun a b => clusterKey (boxAtL ps) a ≤ clusterKey (boxAtL ps) b)
      (clustersOf (ovL ps) ps.length)
    have h1 := flatten_map_perm_of_forall
      ((clustersOf (ovL ps) ps.length).insertionSort fun a b =>
        clusterKey (boxAtL ps) a ≤ clusterKey (boxAtL ps) b)
      (chainCluster (pathAt ps) (boxAtL ps)) (fun c => c.map (pathAt ps))
      (fun c _ => chainCluster_perm (pathAt ps) (boxAtL ps) c)
    refine h1.trans ?_
    rw [← List.map_flatten]
    refine ((hsorted.flatten).map (pathAt ps)).trans ?_
    have h4 := (clustersOf_flatten_perm (ovL ps) ps.length).map (pathAt ps)
    rw [map_pathAt_range ps] at h4
    exact h4

theorem mem_orderPaths {ord : DrawingOrder} {paths : List Path} {p : Path}
    (hp : p ∈ orderPaths ord paths) : p ∈ paths := by
  cases ord with
  | smartFlow => exact (sortPathsSmart_perm_helper paths).mem_iff.mp hp
  | random => exact hp
  | topToBottom => exact (List.perm_insertionSort _ paths).mem_iff.mp hp
  | custom => exact (List.perm_insertionSort _ paths).mem_iff.mp hp

theorem mem_orderPathsText {ord : DrawingOrder} {paths : List Path} {p : Path}
    (hp : p ∈ orderPathsText ord paths) : p ∈ paths := by
  cases ord with
  | smartFlow => exact (sortPathsSmart_perm_helper paths).mem_iff.mp hp
  | random => exact hp
  | topToBottom => exact hp
  | custom => exact hp

/-! ## Claim theorems: C2, C6, C9, C10 -/

theorem foldl_add_points_length (l : List Path) :
    ∀ n : ℕ, l.foldl (fun acc p => acc + p.points.length) n =
      n + (l.map fun p => p.points.length).sum := by
  induction l with
  | nil => intro n; simp
  | cons p rest ih =>
    intro n
    simp only [List.foldl_cons, List.map_cons, List.sum_cons]
    rw [ih]
    omega

theorem processLayers008_acc (dirQ : ℤ → ℤ → Dir)
    (strengthOf : List (ℕ × ℕ) → ℚ) (s smoothness : ℚ) :
    ∀ (rasters : List (ℕ × ℕ × Raster)) (acc : List Path × ℕ),
      acc.2 = (acc.1.map fun p => p.points.length).sum →
      (rasters.foldl
        (fun (acc : List Path × ℕ) r =>
          (acc.1 ++ processCanvas008 dirQ strengthOf r.1 r.2.1 r.2.2 s smoothness,
           acc.2 + ((processCanvas008 dirQ strengthOf r.1 r.2.1 r.2.2 s
             smoothness).map (fun p => p.points.length)).sum)) acc).2 =
      ((rasters.foldl
        (fun (acc : List Path × ℕ) r =>
          (acc.1 ++ processCanvas008 dirQ strengthOf r.1 r.2.1 r.2.2 s smoothness,
           acc.2 + ((processCanvas008 dirQ strengthOf r.1 r.2.1 r.2.2 s
             smoothness).map (fun p => p.points.length)).sum)) acc).1.map
        fun p => p.points.length).sum := by
  intro rasters
  induction rasters with
  | nil => intro acc h; simpa using h
  | cons r rest ih =>
    intro acc h
    rw [List.foldl_cons]
    apply ih
    simp only [List.map_append, List.sum_append]
    rw [h]

/-- C2. Total point-count accounting: the `totalPathLength` accumulated
by `processLayers` (`part_008`) equals the sum of `points.length` over
the emitted path list, and the per-item total recomputed inside the
`part_007` compositor's draw equals the sum over that item's paths — no
path is double-counted or dropped between extraction and compositing. -/
theorem C2_total_point_count (dirQ : ℤ → ℤ → Dir)
    (strengthOf : List (ℕ × ℕ) → ℚ) (s smoothness : ℚ)
    (rasters : List (ℕ × ℕ × Raster)) (item : ProcessedItem) :
    (processLayers008 dirQ strengthOf s smoothness rasters).2 =
      ((processLayers008 dirQ strengthOf s smoothness rasters).1.map
        fun p => p.points.length).sum ∧
    compositorTotalLen item =
      (item.paths.map fun p => p.points.length).sum := by
  constructor
  · exact processLayers008_acc dirQ strengthOf s smoothness rasters ([], 0) (by simp)
  · unfold compositorTotalLen
    simpa using foldl_add_points_length item.paths 0

/-- C6 counterexample: the claim, read against the `part_008` pan
transition that its sources cite, is false — `part_008` uses the cubic
ease-out `1 - (1-t)³` (value `7/8` at `t = 1/2`), so at
`progress = -0.5`, pan right, the previous composite is translated by
`0.875 × canvasWidth = 1680` pixels leftward, not `0.5 × canvasWidth`. -/
theorem C6_counterexample_pan008 :
    ease008 (1 / 2) = 7 / 8 ∧
    pan008PrevOffset TransDir.right (-(1 / 2)) CANVAS_WIDTH CANVAS_HEIGHT
      = (-1680, 0) ∧
    (-1680 : ℚ) ≠ -(1 / 2) * CANVAS_WIDTH := by
  refine ⟨?_, ?_, ?_⟩ <;> with_unfolding_all decide

/-- C6 amended: in the `part_007` draw (the variant the app mounts),
the easing is the quadratic ease-in-out with `ease(1/2) = 1/2`, and
rendering `progress = -0.5` with a pan-right transition translates the
previous composite by exactly `0.5 × canvasWidth` pixels leftward while
the new background translates in from the right by the complementary
amount. -/
theorem C6_pan_midpoint_007 :
    ease007 (1 / 2) = 1 / 2 ∧
    transitionOps007 ⟨TransType.pan, TransDir.right, 1⟩ (-(1 / 2)) true =
      [TransOp.prevImage (-(1 / 2) * CANVAS_WIDTH) 0,
       TransOp.background ((1 / 2) * CANVAS_WIDTH) 0] := by
  constructor
  · with_unfolding_all decide
  · with_unfolding_all decide

/-- C9. Path-length invariant: every path emitted by the `part_007`
tracer, every path emitted by the `part_008` tracer, and hence every
path of every `ProcessedItem`, has strictly more than 5 points. -/
theorem C9_path_length_invariant :
    (∀ (w h : ℕ) (img : Raster) (s : ℚ),
      ∀ p ∈ generatePaths007 w h img s, 5 < p.points.length) ∧
    (∀ (dirQ : ℤ → ℤ → Dir) (strengthOf : List (ℕ × ℕ) → ℚ) (w h : ℕ)
      (img : Raster) (s smoothness : ℚ),
      ∀ p ∈ processCanvas008 dirQ strengthOf w h img s smoothness,
        5 < p.points.length) ∧
    (∀ (rA : ImageLayerM → ℕ × ℕ × Raster) (rD : ImageLayerM → Raster)
      (rAT : TextElementM → ℕ × ℕ × Raster) (rDT : TextElementM → Raster)
      (ord : DrawingOrder) (s : ℚ) (layers : List ImageLayerM)
      (texts : List TextElementM),
      ∀ it ∈ processItems rA rD rAT rDT ord s layers texts,
        ∀ p ∈ it.paths, 5 < p.points.length) := by
  refine ⟨generatePaths007_length, processCanvas008_length, ?_⟩
  intro rA rD rAT rDT ord s layers texts it hit p hp
  unfold processItems at hit
  rcases List.mem_append.mp hit with h | h
  · rcases List.mem_map.mp h with ⟨layer, _, rfl⟩
    simp only at hp
    exact generatePaths007_length _ _ _ _ p (mem_orderPaths hp)
  · rcases List.mem_map.mp h with ⟨t, _, rfl⟩
    simp only at hp
    exact generatePaths007_length _ _ _ _ p (mem_orderPathsText hp)

theorem headD_mem {α : Type} (l : List α) (d : α) (h : l ≠ []) :
    l.headD d ∈ l := by
  cases l with
  | nil => exact absurd rfl h
  | cons x xs => simp

/-- Witness for C9 at the concrete top-row fixture. -/
theorem C9_path_length_invariant_witness :
    5 < ((generatePaths007 8 8 imgRowTop 1).headD defaultPath).points.length :=
  C9_path_length_invariant.1 8 8 imgRowTop 1
    ((generatePaths007 8 8 imgRowTop 1).headD defaultPath)
    (headD_mem _ _ (by with_unfolding_all decide))

/-- C10. The smart-flow organizer returns a permutation of its input:
each input path appears exactly once (multiset equality), so the total
point count used downstream is preserved. -/
theorem C10_smart_flow_permutation (ps : List Path) :
    (sortPathsSmart ps).Perm ps ∧
    ((sortPathsSmart ps).map fun p => p.points.length).sum =
      (ps.map fun p => p.points.length).sum := by
  refine ⟨sortPathsSmart_perm_helper ps, ?_⟩
  exact ((sortPathsSmart_perm_helper ps).map fun p => p.points.length).sum_eq

/-- C7 counterexample: with `drawingOrder = top-to-bottom` and layers
`[B, A]` where A's first path starts above B's first path
(y = 1/8 < 3/4), the emitted `ProcessedItems` are `[B, A]` — item order
follows the layer-array order, so A's item does *not* precede B's. -/
theorem C7_counterexample_item_order :
    (c7Items.map fun it => it.id) = ["B", "A"] ∧
    itemFirstY (c7Items.getD 1 defaultItem) <
      itemFirstY (c7Items.getD 0 defaultItem) := by
  constructor
  · with_unfolding_all decide
  · with_unfolding_all decide

/-- C7 amended: `processItems` emits `ProcessedItems` in layer-array
order (the `drawingOrder` setting only orders paths *within* an item),
so with layers `[A, B]` — A before B in the array — A's item precedes
B's regardless of the paths' y coordinates. -/
theorem C7_item_order_is_array_order (rA : ImageLayerM → ℕ × ℕ × Raster)
    (rD : ImageLayerM → Raster) (rAT : TextElementM → ℕ × ℕ × Raster)
    (rDT : TextElementM → Raster) (A B : ImageLayerM) (s : ℚ) :
    (processItems rA rD rAT rDT DrawingOrder.topToBottom s [A, B] []).map
      (fun it => it.id) = [A.id, B.id] := by
  simp [processItems]

/-! ## Claims C3 and C4: properties of the `part_008` draw -/

theorem blend_one (src dst : Color) : blend 1 src dst = src := by
  unfold blend
  cases src
  simp

theorem pointOp_out {W H : ℕ} {m : ℕ × ℕ → Option (Color → Color)}
    {px : Canvas} {p : ℕ × ℕ} (hp : ¬(p.1 < W ∧ p.2 < H)) :
    pointOp W H m px p = px p := by
  unfold pointOp
  rw [if_neg hp]

theorem strokeFoldl_out {W H : ℕ} {α : ℚ} {c : Color} {p : ℕ × ℕ}
    (hp : ¬(p.1 < W ∧ p.2 < H)) :
    ∀ (prefixes : List (List Pt)) (px : Canvas),
      (prefixes.foldl (fun px pr => strokePaint W H α c pr px) px) p = px p := by
  intro prefixes
  induction prefixes with
  | nil => intro px; rfl
  | cons pr rest ih =>
    intro px
    rw [List.foldl_cons, ih]
    unfold strokePaint
    exact pointOp_out hp

theorem panStage_out {W H : ℕ} {dir : TransDir} {progress entryAlpha : ℚ}
    {paper : Color} {prevOpt : Option Canvas} {px0 : Canvas} {p : ℕ × ℕ}
    (hp : ¬(p.1 < W ∧ p.2 < H)) :
    panStage W H dir progress entryAlpha paper prevOpt px0 p = px0 p := by
  unfold panStage fillRectAt
  rw [pointOp_out hp]
  cases prevOpt with
  | none => exact pointOp_out hp
  | some prev => exact pointOp_out hp

theorem strokeStage_out {W H : ℕ} {α : ℚ} {c : Color} {pointsToDraw : ℕ}
    {paths : List Path} {px0 : Canvas} {p : ℕ × ℕ}
    (hp : ¬(p.1 < W ∧ p.2 < H)) :
    strokeStage W H α c pointsToDraw paths px0 p = px0 p :=
  strokeFoldl_out hp _ px0

theorem sweepStage_out {W H : ℕ} {α colorProgress : ℚ}
    {compOpt : Option Canvas} {px : Canvas} {p : ℕ × ℕ}
    (hp : ¬(p.1 < W ∧ p.2 < H)) :
    sweepStage W H α colorProgress compOpt px p = px p := by
  unfold sweepStage
  cases compOpt with
  | none => rfl
  | some comp =>
    dsimp only
    by_cases h : 0 < colorProgress
    · rw [if_pos h]
      exact pointOp_out hp
    · rw [if_neg h]

theorem handStage_out {W H : ℕ}
    {handR : ℚ × ℚ × ℚ × Bool → ℕ × ℕ → Option Color} {showHand : Bool}
    {progress : ℚ} {hand : Option (ℚ × ℚ) × ℚ} {px : Canvas} {p : ℕ × ℕ}
    (hp : ¬(p.1 < W ∧ p.2 < H)) :
    handStage W H handR showHand progress hand px p = px p := by
  unfold handStage
  split
  · obtain ⟨ho, ha⟩ := hand
    cases ho with
    | none => rfl
    | some hpos => exact pointOp_out hp
  · rfl

theorem draw008Body_pixels_out (osc : ℚ → ℚ × ℚ) (atan2Q : ℚ → ℚ → ℚ)
    (handR : ℚ × ℚ × ℚ × Bool → ℕ × ℕ → Option Color)
    (st8 : DrawState008) (tr : Option CameraTransitionM)
    (settings : Settings008) (progress : ℚ) (W H : ℕ)
    (entryAlpha : ℚ) (px0 : Canvas) {p : ℕ × ℕ}
    (hp : ¬(p.1 < W ∧ p.2 < H)) :
    (draw008Body osc atan2Q handR st8 tr settings progress W H
      entryAlpha px0).pixels p = px0 p := by
  unfold draw008Body
  split
  · exact panStage_out hp
  · split
    · rfl
    · dsimp only
      rw [handStage_out hp, sweepStage_out hp, strokeStage_out hp]

theorem draw008_pixels_out (osc : ℚ → ℚ × ℚ) (atan2Q : ℚ → ℚ → ℚ)
    (handR : ℚ × ℚ × ℚ × Bool → ℕ × ℕ → Option Color)
    (st8 : DrawState008) (tr : Option CameraTransitionM)
    (settings : Settings008) (progress : ℚ) (W H : ℕ) (ctx : CtxState)
    {p : ℕ × ℕ} (hp : ¬(p.1 < W ∧ p.2 < H)) :
    (draw008 osc atan2Q handR st8 tr settings progress W H ctx).pixels p =
      ctx.pixels p := by
  unfold draw008
  rw [draw008Body_pixels_out _ _ _ _ _ _ _ _ _ _ _ hp]
  unfold fillRectFull
  exact pointOp_out hp

theorem draw008_alpha_pen (osc : ℚ → ℚ × ℚ) (atan2Q : ℚ → ℚ → ℚ)
    (handR : ℚ × ℚ × ℚ × Bool → ℕ × ℕ → Option Color)
    (st8 : DrawState008) (tr : Option CameraTransitionM)
    (settings : Settings008) (progress : ℚ) (W H : ℕ) (ctx : CtxState)
    (hpen : settings.lineStyle = LineStyle.pen) (halpha : ctx.alpha = 1) :
    (draw008 osc atan2Q handR st8 tr settings progress W H ctx).alpha = 1 := by
  unfold draw008 draw008Body
  split
  · exact halpha
  · split
    · exact halpha
    · dsimp only
      rw [hpen]
      rfl

theorem draw008_congr (osc : ℚ → ℚ × ℚ) (atan2Q : ℚ → ℚ → ℚ)
    (handR : ℚ × ℚ × ℚ × Bool → ℕ × ℕ → Option Color)
    (st8 : DrawState008) (tr : Option CameraTransitionM)
    (settings : Settings008) (progress : ℚ) (W H : ℕ)
    (ctx₁ ctx₂ : CtxState) (h₁ : ctx₁.alpha = 1) (h₂ : ctx₂.alpha = 1)
    (hout : ∀ p : ℕ × ℕ, ¬(p.1 < W ∧ p.2 < H) →
      ctx₁.pixels p = ctx₂.pixels p) :
    draw008 osc atan2Q handR st8 tr settings progress W H ctx₁ =
    draw008 osc atan2Q handR st8 tr settings progress W H ctx₂ := by
  unfold draw008
  rw [h₁, h₂]
  have hpx : fillRectFull W H 1 settings.paperColor ctx₁.pixels =
      fillRectFull W H 1 settings.paperColor ctx₂.pixels := by
    funext p
    by_cases hin : p.1 < W ∧ p.2 < H
    · unfold fillRectFull pointOp
      rw [if_pos hin, if_pos hin]
      simp [blend_one]
    · unfold fillRectFull
      rw [pointOp_out hin, pointOp_out hin]
      exact hout p hin
  rw [hpx]

/-- C4 counterexample: the `part_008` draw is not idempotent.  With the
default pencil line style, `draw` leaves `globalAlpha = 0.85` on the
context, so calling it twice with identical arguments
(progress 1.5, one 6-point path, red composite) yields a different
pixel at (0,0) — the second call's background and composite blend with
the first call's output. -/
theorem C4_counterexample_idempotence :
    (draw008 oscZ atan2Z handZ st8C none settingsPencil (3/2) 8 8
        (draw008 oscZ atan2Z handZ st8C none settingsPencil (3/2) 8 8
          ctxFresh)).pixels (0, 0) ≠
    (draw008 oscZ atan2Z handZ st8C none settingsPencil (3/2) 8 8
      ctxFresh).pixels (0, 0) := by
  with_unfolding_all decide

/-- C4 amended: the draw's pixel output depends on the context's
persistent `globalAlpha`, which `part_008` leaves at the line style's
alpha (0.85 pencil / 0.95 marker).  With the pen style — whose alpha is
1 — and a context entering at `globalAlpha = 1`, calling the draw twice
with identical arguments is idempotent: the second call reproduces the
first call's context exactly. -/
theorem C4_idempotent_pen_008 (osc : ℚ → ℚ × ℚ) (atan2Q : ℚ → ℚ → ℚ)
    (handR : ℚ × ℚ × ℚ × Bool → ℕ × ℕ → Option Color)
    (st8 : DrawState008) (tr : Option CameraTransitionM)
    (settings : Settings008) (progress : ℚ) (W H : ℕ) (ctx : CtxState)
    (hpen : settings.lineStyle = LineStyle.pen) (halpha : ctx.alpha = 1) :
    draw008 osc atan2Q handR st8 tr settings progress W H
      (draw008 osc atan2Q handR st8 tr settings progress W H ctx) =
    draw008 osc atan2Q handR st8 tr settings progress W H ctx :=
  draw008_congr osc atan2Q handR st8 tr settings progress W H _ _
    (draw008_alpha_pen osc atan2Q handR st8 tr settings progress W H ctx
      hpen halpha)
    halpha
    (fun p hp =>
      draw008_pixels_out osc atan2Q handR st8 tr settings progress W H ctx hp)

/-- Witness for C4 at the concrete pen fixture. -/
theorem C4_idempotent_pen_008_witness :
    draw008 oscZ atan2Z handZ st8C none settingsPen (3/2) 8 8
      (draw008 oscZ atan2Z handZ st8C none settingsPen (3/2) 8 8 ctxFresh) =
    draw008 oscZ atan2Z handZ st8C none settingsPen (3/2) 8 8 ctxFresh :=
  C4_idempotent_pen_008 oscZ atan2Z handZ st8C none settingsPen (3/2) 8 8
    ctxFresh rfl rfl

theorem handStage_ge2 {W H : ℕ}
    {handR : ℚ × ℚ × ℚ × Bool → ℕ × ℕ → Option Color} {showHand : Bool}
    {progress : ℚ} {hand : Option (ℚ × ℚ) × ℚ} {px : Canvas}
    (h : ¬progress < 2) :
    handStage W H handR showHand progress hand px = px := by
  unfold handStage
  rw [if_neg (fun hc => h hc.2)]

/-- C3 counterexample: the claim, read against the `part_008` draw that
its sources cite, is false — with the default pencil line style the
color sweep blits the composite at `globalAlpha = 0.85`, so rendering at
`progress = 2.0` over a white paper with a solid red composite yields a
blended pixel, not the composite's pixel. -/
theorem C3_counterexample_full_reveal :
    (draw008 oscZ atan2Z handZ st8C none settingsPencil 2 8 8
      ctxFresh).pixels (0, 0) ≠ redC := by
  with_unfolding_all decide

/-- C3 amended: in the `part_008` draw, when at least one path was
extracted and the line style is pen (stroke alpha 1), rendering at
`progress = 2.0` produces pixel output identical to the composite
canvas at every canvas pixel (the full-height clip reveals the
composite exactly, covering the sketch underneath); with pencil/marker
styles the composite is blended at 0.85/0.95 alpha, and with zero
extracted paths the draw returns after the background fill. -/
theorem C3_full_reveal_pen_008 (osc : ℚ → ℚ × ℚ) (atan2Q : ℚ → ℚ → ℚ)
    (handR : ℚ × ℚ × ℚ × Bool → ℕ × ℕ → Option Color)
    (st8 : DrawState008) (tr : Option CameraTransitionM)
    (settings : Settings008) (W H : ℕ) (ctx : CtxState) (comp : Canvas)
    (hpen : settings.lineStyle = LineStyle.pen)
    (hpaths : st8.paths ≠ [])
    (hcomp : st8.compositeCanvas = some comp) :
    ∀ p : ℕ × ℕ, p.1 < W → p.2 < H →
      (draw008 osc atan2Q handR st8 tr settings 2 W H ctx).pixels p =
        comp p := by
  intro p hp1 hp2
  unfold draw008 draw008Body
  rw [if_neg (fun h => absurd h.1 (by norm_num)), if_neg hpaths]
  dsimp only
  have hcp : max (((2 : ℚ) - 11 / 10) / (9 / 10)) 0 = 1 := by norm_num
  rw [hcp, hpen, handStage_ge2 (by norm_num)]
  unfold sweepStage
  rw [hcomp]
  dsimp only
  rw [if_pos (by norm_num : (0 : ℚ) < 1)]
  unfold clipBlit pointOp
  rw [if_pos ⟨hp1, hp2⟩]
  have hlt : (p.2 : ℚ) < (H : ℚ) * 1 := by
    rw [mul_one]
    exact_mod_cast hp2
  dsimp only
  rw [if_pos hlt]
  dsimp only
  rw [show styleAlpha LineStyle.pen = (1 : ℚ) from rfl, blend_one]

/-- Witness for C3 at the concrete pen fixture (red composite). -/
theorem C3_full_reveal_pen_008_witness :
    (draw008 oscZ atan2Z handZ st8C none settingsPen 2 8 8
      ctxFresh).pixels (0, 0) = redC :=
  C3_full_reveal_pen_008 oscZ atan2Z handZ st8C none settingsPen 8 8
    ctxFresh (fun _ => redC) rfl (by with_unfolding_all decide) rfl
    (0, 0) (by norm_num) (by norm_num)

/-! ## Claim C5: smart-flow cluster ordering

The breadth-first cluster growth collects exactly the overlap-connected
component of its seed: it never crosses into a set that is closed under
the overlap relation's complement, and with sufficient fuel (the queue
shrinks against the unvisited count each iteration) it exhausts the
component. -/

theorem bfsGo_exact (ov : ℕ → ℕ → Bool) (n : ℕ) (S v₀ : Finset ℕ)
    (hSn : ∀ x ∈ S, x < n)
    (hclosed : ∀ x ∈ S, ∀ j, j < n → ov x j = true → j ∈ S)
    (hdisj : ∀ x ∈ S, x ∉ v₀) :
    ∀ (fuel : ℕ) (queue cluster : List ℕ) (visited : Finset ℕ),
      cluster.Nodup →
      (∀ q ∈ queue, q ∈ cluster) →
      (∀ c ∈ cluster, c ∈ S) →
      visited = v₀ ∪ cluster.toFinset →
      (∀ x ∈ cluster, x ∉ queue → ∀ j, j < n → ov x j = true → j ∈ visited) →
      (Finset.range n \ visited).card + queue.length ≤ fuel →
      (bfsGo ov n fuel queue visited cluster).1.Nodup ∧
      (∀ c ∈ (bfsGo ov n fuel queue visited cluster).1, c ∈ S) ∧
      (∀ c ∈ cluster, c ∈ (bfsGo ov n fuel queue visited cluster).1) ∧
      (bfsGo ov n fuel queue visited cluster).2 =
        v₀ ∪ (bfsGo ov n fuel queue visited cluster).1.toFinset ∧
      (∀ x ∈ (bfsGo ov n fuel queue visited cluster).1, ∀ j, j < n →
        ov x j = true → j ∈ (bfsGo ov n fuel queue visited cluster).2) := by
  intro fuel
  induction fuel with
  | zero =>
    intro queue cluster visited hnd hq hcS hvis hscan hfuel
    have hq0 : queue = [] := by
      have := Nat.le_zero.mp hfuel
      exact List.length_eq_zero.mp (by omega)
    subst hq0
    refine ⟨hnd, hcS, fun c hc => hc, hvis, ?_⟩
    intro x hx j hj hov
    exact hscan x hx (by simp) j hj hov
  | succ f ih =>
    intro queue cluster visited hnd hq hcS hvis hscan hfuel
    match queue with
    | [] =>
      refine ⟨hnd, hcS, fun c hc => hc, hvis, ?_⟩
      intro x hx j hj hov
      exact hscan x hx (by simp) j hj hov
    | cur :: rest =>
      simp only [bfsGo]
      have hcur : cur ∈ cluster := hq cur (by simp)
      have hcurS : cur ∈ S := hcS cur hcur
      have hsub : ∀ d ∈ bfsAdds ov n visited cur, d < n ∧ d ∉ visited ∧
          ov cur d = true := fun d hd => mem_bfsAdds.mp hd
      -- new invariants
      have hnd' : (cluster ++ bfsAdds ov n visited cur).Nodup := by
        refine List.Nodup.append hnd (bfsAdds_nodup ov n visited cur) ?_
        intro a ha hadds
        have : a ∉ visited := (hsub a hadds).2.1
        exact this (hvis ▸ Finset.mem_union_right _ (List.mem_toFinset.mpr ha))
      have hq' : ∀ q ∈ rest ++ bfsAdds ov n visited cur,
          q ∈ cluster ++ bfsAdds ov n visited cur := by
        intro q hq'
        rcases List.mem_append.mp hq' with h | h
        · exact List.mem_append_left _ (hq q (List.mem_cons_of_mem cur h))
        · exact List.mem_append_right _ h
      have hcS' : ∀ c ∈ cluster ++ bfsAdds ov n visited cur, c ∈ S := by
        intro c hc
        rcases List.mem_append.mp hc with h | h
        · exact hcS c h
        · exact hclosed cur hcurS c (hsub c h).1 (hsub c h).2.2
      have hvis' : visited ∪ (bfsAdds ov n visited cur).toFinset =
          v₀ ∪ (cluster ++ bfsAdds ov n visited cur).toFinset := by
        rw [hvis, List.toFinset_append, Finset.union_assoc]
      have hscan' : ∀ x ∈ cluster ++ bfsAdds ov n visited cur,
          x ∉ rest ++ bfsAdds ov n visited cur → ∀ j, j < n →
          ov x j = true →
          j ∈ visited ∪ (bfsAdds ov n visited cur).toFinset := by
        intro x hx hxq j hj hov
        rcases List.mem_append.mp hx with h | h
        · by_cases hxc : x = cur
          · subst hxc
            by_cases hjv : j ∈ visited
            · exact Finset.mem_union_left _ hjv
            · refine Finset.mem_union_right _ (List.mem_toFinset.mpr ?_)
              exact mem_bfsAdds.mpr ⟨hj, hjv, hov⟩
          · have hxrest : x ∉ rest := fun hr =>
              hxq (List.mem_append_left _ hr)
            have : x ∉ cur :: rest := by
              intro hmem
              rcases List.mem_cons.mp hmem with h' | h'
              · exact hxc h'
              · exact hxrest h'
            exact Finset.mem_union_left _ (hscan x h this j hj hov)
        · exact absurd (List.mem_append_right rest h) hxq
      have hfuel' : (Finset.range n \
            (visited ∪ (bfsAdds ov n visited cur).toFinset)).card +
          (rest ++ bfsAdds ov n visited cur).length ≤ f := by
        have hsubset : (bfsAdds ov n visited cur).toFinset ⊆
            Finset.range n \ visited := by
          intro a ha
          have := hsub a (List.mem_toFinset.mp ha)
          exact Finset.mem_sdiff.mpr ⟨Finset.mem_range.mpr this.1, this.2.1⟩
        have hcardadds : (bfsAdds ov n visited cur).toFinset.card =
            (bfsAdds ov n visited cur).length :=
          List.toFinset_card_of_nodup (bfsAdds_nodup ov n visited cur)
        have hsd : Finset.range n \
            (visited ∪ (bfsAdds ov n visited cur).toFinset) =
            (Finset.range n \ visited) \
              (bfsAdds ov n visited cur).toFinset := by
          ext a
          simp only [Finset.mem_sdiff, Finset.mem_union]
          tauto
        have hcard : ((Finset.range n \ visited) \
            (bfsAdds ov n visited cur).toFinset).card =
            (Finset.range n \ visited).card -
              (bfsAdds ov n visited cur).toFinset.card :=
          Finset.card_sdiff hsubset
        have hle : (bfsAdds ov n visited cur).toFinset.card ≤
            (Finset.range n \ visited).card := Finset.card_le_card hsubset
        rw [hsd, hcard, hcardadds, List.length_append]
        simp only [List.length_cons] at hfuel
        omega
      obtain ⟨r1, r2, r3, r4, r5⟩ := ih (rest ++ bfsAdds ov n visited cur)
        (cluster ++ bfsAdds ov n visited cur)
        (visited ∪ (bfsAdds ov n visited cur).toFinset)
        hnd' hq' hcS' hvis' hscan' hfuel'
      refine ⟨r1, r2, ?_, r4, r5⟩
      intro c hc
      exact r3 c (List.mem_append_left _ hc)

theorem bfs_cluster_exact (ov : ℕ → ℕ → Bool) (n : ℕ) (S v₀ : Finset ℕ)
    (seed : ℕ) (hSn : ∀ x ∈ S, x < n)
    (hclosed : ∀ x ∈ S, ∀ j, j < n → ov x j = true → j ∈ S)
    (hdisj : ∀ x ∈ S, x ∉ v₀) (hseed : seed ∈ S)
    (hconn : ∀ y ∈ S,
      Relation.ReflTransGen (fun a b => b ∈ S ∧ ov a b = true) seed y) :
    (bfsGo ov n (n + 1) [seed] (insert seed v₀) [seed]).1.Nodup ∧
    (bfsGo ov n (n + 1) [seed] (insert seed v₀) [seed]).1.toFinset = S ∧
    (bfsGo ov n (n + 1) [seed] (insert seed v₀) [seed]).2 = v₀ ∪ S := by
  have hvis0 : insert seed v₀ = v₀ ∪ ([seed] : List ℕ).toFinset := by
    ext a
    simp [or_comm]
  have hfuel0 : (Finset.range n \ insert seed v₀).card +
      ([seed] : List ℕ).length ≤ n + 1 := by
    have h1 : (Finset.range n \ insert seed v₀).card ≤ n := by
      calc (Finset.range n \ insert seed v₀).card
          ≤ (Finset.range n).card := Finset.card_le_card (Finset.sdiff_subset)
        _ = n := Finset.card_range n
    simpa using h1
  obtain ⟨r1, r2, r3, r4, r5⟩ := bfsGo_exact ov n S v₀ hSn hclosed hdisj
    (n + 1) [seed] [seed] (insert seed v₀)
    (by simp)
    (by intro q hq; simpa using hq)
    (by intro c hc; rw [List.mem_singleton] at hc; exact hc ▸ hseed)
    hvis0
    (by intro x hx hxq
        rw [List.mem_singleton] at hx
        exact absurd (hx ▸ List.mem_singleton_self seed) hxq)
    hfuel0
  have hsubS : (bfsGo ov n (n + 1) [seed] (insert seed v₀) [seed]).1.toFinset
      ⊆ S := by
    intro a ha
    exact r2 a (List.mem_toFinset.mp ha)
  have hSsub : S ⊆
      (bfsGo ov n (n + 1) [seed] (insert seed v₀) [seed]).1.toFinset := by
    intro y hy
    have hreach := hconn y hy
    have key : ∀ z, Relation.ReflTransGen
        (fun a b => b ∈ S ∧ ov a b = true) seed z →
        z ∈ (bfsGo ov n (n + 1) [seed] (insert seed v₀) [seed]).1 := by
      intro z hz
      induction hz with
      | refl => exact r3 seed (List.mem_singleton_self seed)
      | tail hab hbc ihz =>
        rename_i b c
        have hcS := hbc.1
        have := r5 b ihz c (hSn c hcS) hbc.2
        rw [r4] at this
        rcases Finset.mem_union.mp this with h | h
        · exact absurd h (hdisj c hcS)
        · exact List.mem_toFinset.mp h
    exact List.mem_toFinset.mpr (key y hreach)
  have hfin : (bfsGo ov n (n + 1) [seed] (insert seed v₀) [seed]).1.toFinset
      = S := Finset.Subset.antisymm hsubS hSsub
  exact ⟨r1, hfin, by rw [r4, hfin]⟩

theorem clustersGo_all_visited (ov : ℕ → ℕ → Bool) (n : ℕ) :
    ∀ (k i : ℕ) (visited : Finset ℕ), n - i ≤ k →
      (∀ j, j < n → j ∈ visited) → clustersGo ov n i visited = [] := by
  intro k
  induction k with
  | zero =>
    intro i visited hk _
    rw [clustersGo, dif_neg (by omega)]
  | succ k ih =>
    intro i visited hk hall
    by_cases hin : i < n
    · rw [clustersGo, dif_pos hin, if_pos (hall i hin)]
      exact ih (i + 1) visited (by omega) hall
    · rw [clustersGo, dif_neg hin]

theorem clustersGo_second (ov : ℕ → ℕ → Bool) (n : ℕ) (S₁ S₂ : Finset ℕ)
    (hunion : S₁ ∪ S₂ = Finset.range n) (hdisj : Disjoint S₁ S₂)
    (hne₂ : S₂.Nonempty)
    (hclosed₂ : ∀ x ∈ S₂, ∀ j, j < n → ov x j = true → j ∈ S₂)
    (hconn₂ : ∀ x ∈ S₂, ∀ y ∈ S₂,
      Relation.ReflTransGen (fun a b => b ∈ S₂ ∧ ov a b = true) x y) :
    ∀ (k i : ℕ), n - i ≤ k → (∀ j, j < i → j ∈ S₁) →
      ∃ c₂, clustersGo ov n i S₁ = [c₂] ∧ c₂.Nodup ∧ c₂.toFinset = S₂ := by
  have hS₂n : ∀ x ∈ S₂, x < n := by
    intro x hx
    have : x ∈ S₁ ∪ S₂ := Finset.mem_union_right _ hx
    rw [hunion] at this
    exact Finset.mem_range.mp this
  intro k
  induction k with
  | zero =>
    intro i hk hj
    obtain ⟨s, hs⟩ := hne₂
    have hsn : s < n := hS₂n s hs
    have : s ∈ S₁ := hj s (by omega)
    exact absurd hs (Finset.disjoint_left.mp hdisj this)
  | succ k ih =>
    intro i hk hj
    by_cases hin : i < n
    · by_cases hiv : i ∈ S₁
      · rw [clustersGo, dif_pos hin, if_pos hiv]
        refine ih (i + 1) (by omega) ?_
        intro j hji
        rcases Nat.lt_succ_iff_lt_or_eq.mp hji with h | h
        · exact hj j h
        · exact h ▸ hiv
      · have hiS₂ : i ∈ S₂ := by
          have : i ∈ S₁ ∪ S₂ := by
            rw [hunion]
            exact Finset.mem_range.mpr hin
          rcases Finset.mem_union.mp this with h | h
          · exact absurd h hiv
          · exact h
        rw [clustersGo, dif_pos hin, if_neg hiv]
        obtain ⟨b1, b2, b3⟩ := bfs_cluster_exact ov n S₂ S₁ i hS₂n hclosed₂
          (fun x hx => Finset.disjoint_right.mp hdisj hx) hiS₂
          (hconn₂ i hiS₂)
        rw [b3, hunion]
        rw [clustersGo_all_visited ov n n (i + 1) (Finset.range n) (by omega)
          (fun j hjn => Finset.mem_range.mpr hjn)]
        exact ⟨_, rfl, b1, b2⟩
    · obtain ⟨s, hs⟩ := hne₂
      have hsn : s < n := hS₂n s hs
      have : s ∈ S₁ := hj s (by omega)
      exact absurd hs (Finset.disjoint_left.mp hdisj this)

theorem clustersOf_two (ov : ℕ → ℕ → Bool) (n : ℕ) (S₁ S₂ : Finset ℕ)
    (hunion : S₁ ∪ S₂ = Finset.range n) (hdisj : Disjoint S₁ S₂)
    (hne₂ : S₂.Nonempty)
    (hclosed₁ : ∀ x ∈ S₁, ∀ j, j < n → ov x j = true → j ∈ S₁)
    (hclosed₂ : ∀ x ∈ S₂, ∀ j, j < n → ov x j = true → j ∈ S₂)
    (hconn₁ : ∀ x ∈ S₁, ∀ y ∈ S₁,
      Relation.ReflTransGen (fun a b => b ∈ S₁ ∧ ov a b = true) x y)
    (hconn₂ : ∀ x ∈ S₂, ∀ y ∈ S₂,
      Relation.ReflTransGen (fun a b => b ∈ S₂ ∧ ov a b = true) x y)
    (h0 : 0 ∈ S₁) :
    ∃ c₁ c₂, clustersOf ov n = [c₁, c₂] ∧
      c₁.Nodup ∧ c₁.toFinset = S₁ ∧ c₂.Nodup ∧ c₂.toFinset = S₂ := by
  have hS₁n : ∀ x ∈ S₁, x < n := by
    intro x hx
    have : x ∈ S₁ ∪ S₂ := Finset.mem_union_left _ hx
    rw [hunion] at this
    exact Finset.mem_range.mp this
  have hn : 0 < n := hS₁n 0 h0
  unfold clustersOf
  rw [clustersGo, dif_pos hn, if_neg (Finset.not_mem_empty 0)]
  obtain ⟨b1, b2, b3⟩ := bfs_cluster_exact ov n S₁ ∅ 0 hS₁n hclosed₁
    (fun x _ => Finset.not_mem_empty x) h0 (hconn₁ 0 h0)
  rw [b3, Finset.empty_union]
  obtain ⟨c₂, hc₂, hc₂nd, hc₂fin⟩ := clustersGo_second ov n S₁ S₂ hunion
    hdisj hne₂ hclosed₂ hconn₂ n 1 (by omega)
    (fun j hj => by
      have : j = 0 := by omega
      exact this ▸ h0)
  rw [hc₂]
  exact ⟨_, c₂, rfl, b1, b2, hc₂nd, hc₂fin⟩

theorem clusterKey_eq_keyS (ps : List Path) (c : List ℕ) (S : Finset ℕ)
    (hnd : c.Nodup) (hfin : c.toFinset = S) :
    clusterKey (boxAtL ps) c = clusterKeyS ps S := by
  unfold clusterKey clusterKeyS clusterCX clusterCY
  rw [← hfin, List.sum_toFinset _ hnd, List.sum_toFinset _ hnd,
    List.toFinset_card_of_nodup hnd]

theorem perm_sort_of_nodup_toFinset (c : List ℕ) (S : Finset ℕ)
    (hnd : c.Nodup) (hfin : c.toFinset = S) :
    c.Perm (S.sort (· ≤ ·)) := by
  have h1 : c.toFinset = (S.sort (· ≤ ·)).toFinset := by
    rw [Finset.sort_toFinset]
    exact hfin
  have h2 := List.toFinset_eq_iff_perm_dedup.mp h1
  rwa [List.dedup_eq_self.mpr hnd,
    List.dedup_eq_self.mpr (Finset.sort_nodup _ _)] at h2

theorem insertionSort_pair {α : Type} (r : α → α → Prop) [DecidableRel r]
    (a b : α) :
    List.insertionSort r [a, b] = if r a b then [a, b] else [b, a] := by
  simp [List.insertionSort, List.orderedInsert]

/-- C5. Smart-flow cluster ordering: when the input paths split into two
index sets `S₁`, `S₂` that partition the indices, whose padded bounding
boxes do not overlap across the sets, that are each internally connected
under the padded-overlap relation, and whose mean-center keys satisfy
`key S₁ < key S₂` (`key = center.y*5 + center.x`), the organizer's
output is exactly the `S₁` paths (some permutation) followed by the `S₂`
paths (some permutation) — every path of the smaller-key cluster comes
first. -/
theorem C5_smart_flow_cluster_order (ps : List Path) (S₁ S₂ : Finset ℕ)
    (hne : ps ≠ [])
    (hunion : S₁ ∪ S₂ = Finset.range ps.length)
    (hdisj : Disjoint S₁ S₂)
    (hne₁ : S₁.Nonempty) (hne₂ : S₂.Nonempty)
    (hnov : ∀ a ∈ S₁, ∀ b ∈ S₂, ovL ps a b = false ∧ ovL ps b a = false)
    (hconn₁ : ∀ x ∈ S₁, ∀ y ∈ S₁,
      Relation.ReflTransGen (fun a b => b ∈ S₁ ∧ ovL ps a b = true) x y)
    (hconn₂ : ∀ x ∈ S₂, ∀ y ∈ S₂,
      Relation.ReflTransGen (fun a b => b ∈ S₂ ∧ ovL ps a b = true) x y)
    (hkey : clusterKeyS ps S₁ < clusterKeyS ps S₂) :
    ∃ l₁ l₂, sortPathsSmart ps = l₁ ++ l₂ ∧
      l₁.Perm ((S₁.sort (· ≤ ·)).map (pathAt ps)) ∧
      l₂.Perm ((S₂.sort (· ≤ ·)).map (pathAt ps)) := by
  have hclosed₁ : ∀ x ∈ S₁, ∀ j, j < ps.length → ovL ps x j = true →
      j ∈ S₁ := by
    intro x hx j hj hov
    have hj' : j ∈ S₁ ∪ S₂ := by
      rw [hunion]
      exact Finset.mem_range.mpr hj
    rcases Finset.mem_union.mp hj' with h | h
    · exact h
    · rw [(hnov x hx j h).1] at hov
      exact absurd hov (by simp)
  have hclosed₂ : ∀ x ∈ S₂, ∀ j, j < ps.length → ovL ps x j = true →
      j ∈ S₂ := by
    intro x hx j hj hov
    have hj' : j ∈ S₁ ∪ S₂ := by
      rw [hunion]
      exact Finset.mem_range.mpr hj
    rcases Finset.mem_union.mp hj' with h | h
    · rw [(hnov j h x hx).2] at hov
      exact absurd hov (by simp)
    · exact h
  have h0 : (0 : ℕ) ∈ S₁ ∪ S₂ := by
    rw [hunion]
    exact Finset.mem_range.mpr (List.length_pos.mpr hne)
  unfold sortPathsSmart
  rw [if_neg (by simpa [List.isEmpty_iff] using hne)]
  rcases Finset.mem_union.mp h0 with h0₁ | h0₂
  · obtain ⟨c₁, c₂, hcl, nd₁, fin₁, nd₂, fin₂⟩ := clustersOf_two (ovL ps)
      ps.length S₁ S₂ hunion hdisj hne₂ hclosed₁ hclosed₂ hconn₁ hconn₂ h0₁
    rw [hcl, insertionSort_pair]
    rw [if_pos (show clusterKey (boxAtL ps) c₁ ≤ clusterKey (boxAtL ps) c₂ by
      rw [clusterKey_eq_keyS ps c₁ S₁ nd₁ fin₁,
        clusterKey_eq_keyS ps c₂ S₂ nd₂ fin₂]
      exact le_of_lt hkey)]
    refine ⟨chainCluster (pathAt ps) (boxAtL ps) c₁,
      chainCluster (pathAt ps) (boxAtL ps) c₂, by simp, ?_, ?_⟩
    · exact (chainCluster_perm _ _ c₁).trans
        ((perm_sort_of_nodup_toFinset c₁ S₁ nd₁ fin₁).map _)
    · exact (chainCluster_perm _ _ c₂).trans
        ((perm_sort_of_nodup_toFinset c₂ S₂ nd₂ fin₂).map _)
  · obtain ⟨cA, cB, hcl, ndA, finA, ndB, finB⟩ := clustersOf_two (ovL ps)
      ps.length S₂ S₁ (by rw [Finset.union_comm]; exact hunion) hdisj.symm
      hne₁ hclosed₂ hclosed₁ hconn₂ hconn₁ h0₂
    rw [hcl, insertionSort_pair]
    rw [if_neg (show ¬clusterKey (boxAtL ps) cA ≤ clusterKey (boxAtL ps) cB by
      rw [clusterKey_eq_keyS ps cA S₂ ndA finA,
        clusterKey_eq_keyS ps cB S₁ ndB finB]
      exact not_le.mpr hkey)]
    refine ⟨chainCluster (pathAt ps) (boxAtL ps) cB,
      chainCluster (pathAt ps) (boxAtL ps) cA, by simp, ?_, ?_⟩
    · exact (chainCluster_perm _ _ cB).trans
        ((perm_sort_of_nodup_toFinset cB S₁ ndB finB).map _)
    · exact (chainCluster_perm _ _ cA).trans
        ((perm_sort_of_nodup_toFinset cA S₂ ndA finA).map _)

/-- Witness for C5 at the concrete two-cluster input `psW`
(`S₁ = {0}`, `S₂ = {1}`, keys `0.6 < 5.4`). -/
theorem C5_smart_flow_cluster_order_witness :
    ∃ l₁ l₂, sortPathsSmart psW = l₁ ++ l₂ ∧
      l₁.Perm ((({0} : Finset ℕ).sort (· ≤ ·)).map (pathAt psW)) ∧
      l₂.Perm ((({1} : Finset ℕ).sort (· ≤ ·)).map (pathAt psW)) :=
  C5_smart_flow_cluster_order psW {0} {1}
    (by simp [psW])
    (by with_unfolding_all decide)
    (by simp)
    ⟨0, by simp⟩ ⟨1, by simp⟩
    (by intro a ha b hb
        simp only [Finset.mem_singleton] at ha hb
        subst ha
        subst hb
        constructor <;> with_unfolding_all decide)
    (by intro x hx y hy
        simp only [Finset.mem_singleton] at hx hy
        subst hx
        subst hy
        exact Relation.ReflTransGen.refl)
    (by intro x hx y hy
        simp only [Finset.mem_singleton] at hx hy
        subst hx
        subst hy
        exact Relation.ReflTransGen.refl)
    (by with_unfolding_all decide)

end Sketch
